import Mathlib

/-!
Shallow embedding of the Shadow-Depth-Analytics core pipeline:
the Segmenter (`generateShadowMask` in `utils/imageProcessing`, with
`computeOtsuThreshold` and `getSaturation`), the Stability Tracker
(`processFrame` in `components/CameraAnalysis.tsx`), and the geometric
estimator (`estimateH` in `constants.ts`).

Machine numbers are embedded exactly: pixel channels and counters as `ℕ`,
intermediate averages and variances as `ℚ`, and the tracker / estimator
(which use `Math.sqrt`) over `ℝ`.
-/

namespace ShadowDepth

/-- One RGB pixel of a frame (8-bit channels; a frame buffer is well formed
when every channel is `≤ 255`). The alpha channel of the source's RGBA
buffer is never read, so it is omitted. -/
structure RGB where
  r : ℕ
  g : ℕ
  b : ℕ
  deriving DecidableEq, Repr

/-- A frame is its pixel list in row-major order together with declared
dimensions; this predicate is the well-formedness the Frame Source
guarantees: buffer length matches the dimensions. -/
def WfFrame (w h : ℕ) (data : List RGB) : Prop :=
  data.length = w * h

/-- 8-bit channels. -/
def WfPixels (data : List RGB) : Prop :=
  ∀ p ∈ data, p.r ≤ 255 ∧ p.g ≤ 255 ∧ p.b ≤ 255

/-- Perceptual grayscale of a pixel:
`Math.round(r * 0.299 + g * 0.587 + b * 0.114)` from the source, written
with exact rational coefficients (`0.299 = 299/1000` etc.); for
nonnegative arguments JS `Math.round` is `⌊x + 1/2⌋`, which is Mathlib's
`round`. -/
def gray (p : RGB) : ℕ :=
  (round ((p.r * (299 / 1000 : ℚ) + p.g * (587 / 1000 : ℚ) + p.b * (114 / 1000 : ℚ)))).toNat

/-- HSV-style saturation of a pixel, `getSaturation` from the source:
`((max - min) / max) * 255`, and `0` when `max = 0`. -/
def saturation (p : RGB) : ℚ :=
  let M := max p.r (max p.g p.b)
  let m := min p.r (min p.g p.b)
  if M = 0 then 0 else (((M : ℚ) - m) / M) * 255

/-- The per-pixel shadow test of the source's mask loop:
`gray < finalThreshold && (sat < 60 || gray < 30)`. -/
def isShadow (T : ℕ) (p : RGB) : Prop :=
  gray p < T ∧ (saturation p < 60 ∨ gray p < 30)

instance (T : ℕ) (p : RGB) : Decidable (isShadow T p) := by
  unfold isShadow; infer_instance

/-- The 256-bin grayscale histogram the source builds with
`histogram[gray]++`: bin `t` counts the pixels whose grayscale is `t`. -/
def frameHist (data : List RGB) : ℕ → ℕ :=
  fun t => data.countP (fun p => gray p = t)

/-- The body of `computeOtsuThreshold`'s scan over candidate thresholds
`t = 0, …, 255`, carried state `(sumB, wB, varMax, threshold)`; `continue`
when the background weight is still zero, early `return` (`break`) when
the foreground weight hits zero. -/
def otsuLoop (hist : ℕ → ℕ) (total sum : ℚ) :
    List ℕ → ℚ → ℚ → ℚ → ℕ → ℕ
  | [], _, _, _, thr => thr
  | t :: ts, sumB, wB, varMax, thr =>
    let wB' := wB + hist t
    if wB' = 0 then otsuLoop hist total sum ts sumB wB' varMax thr
    else
      let wF := total - wB'
      if wF = 0 then thr
      else
        let sumB' := sumB + t * hist t
        let mB := sumB' / wB'
        let mF := (sum - sumB') / wF
        let varBetween := wB' * wF * (mB - mF) * (mB - mF)
        if varMax < varBetween then otsuLoop hist total sum ts sumB' wB' varBetween t
        else otsuLoop hist total sum ts sumB' wB' varMax thr

/-- `computeOtsuThreshold` from the source: scan all 256 candidate
thresholds, tracking the best inter-class variance. -/
def computeOtsuThreshold (hist : ℕ → ℕ) (totalPixels : ℕ) : ℕ :=
  let sum : ℚ := ∑ i ∈ Finset.range 256, (i : ℚ) * hist i
  otsuLoop hist totalPixels sum (List.range 256) 0 0 0 0

/-- The Segmenter's final threshold:
`Math.min(Math.max(otsuThreshold, 30), 80)`. -/
def segThreshold (w h : ℕ) (data : List RGB) : ℕ :=
  min (max (computeOtsuThreshold (frameHist data) (w * h)) 30) 80

/-- Accumulator of the mask-generation loop: shadow pixel count, running
intensity sum, and the running bounding box, initialized to
`(0, 0, width, height, 0, 0)` as in the source. -/
structure MaskState where
  count : ℕ
  intensitySum : ℕ
  minX : ℕ
  minY : ℕ
  maxX : ℕ
  maxY : ℕ
  deriving DecidableEq, Repr

/-- The row-major pixel coordinates `(x, y)` the double loop
`for y … for x …` visits, in visit order. -/
def coords (w h : ℕ) : List (ℕ × ℕ) :=
  (List.range h).flatMap (fun y => (List.range w).map (fun x => (x, y)))

/-- One iteration of the mask loop at coordinate `c = (x, y)`: look up the
pixel at index `y * width + x`, and if it passes the shadow test bump the
count, accumulate its grayscale into the intensity sum and fold it into
the bounding box. -/
def maskStep (T w : ℕ) (data : List RGB) (s : MaskState) (c : ℕ × ℕ) : MaskState :=
  let p := data.getD (c.2 * w + c.1) ⟨0, 0, 0⟩
  if isShadow T p then
    { count := s.count + 1
      intensitySum := s.intensitySum + gray p
      minX := min s.minX c.1
      minY := min s.minY c.2
      maxX := max s.maxX c.1
      maxY := max s.maxY c.2 }
  else s

/-- The `ShadowData` record the Segmenter returns. -/
structure ShadowData where
  count : ℕ
  minX : ℕ
  minY : ℕ
  maxX : ℕ
  maxY : ℕ
  avgIntensity : ℚ
  deriving DecidableEq, Repr

/-- `generateShadowMask` from the source on an already-fetched pixel
buffer: grayscale + histogram, Otsu threshold with the `[30, 80]` clamp,
then the masking loop.  Returns the `ShadowData` summary together with
the visualization buffer the loop writes back (each pixel index is read
before it is overwritten and written exactly once, so on a well-formed
buffer the write-back is the pointwise recolor shadow ↦ black,
non-shadow ↦ white). -/
def generateShadowMask (w h : ℕ) (data : List RGB) : ShadowData × List RGB :=
  let T := segThreshold w h data
  let s := (coords w h).foldl (maskStep T w data) ⟨0, 0, w, h, 0, 0⟩
  ({ count := s.count
     minX := if 0 < s.count then s.minX else 0
     minY := if 0 < s.count then s.minY else 0
     maxX := if 0 < s.count then s.maxX else 0
     maxY := if 0 < s.count then s.maxY else 0
     avgIntensity := if 0 < s.count then (s.intensitySum : ℚ) / s.count else 0 },
   data.map (fun p => if isShadow T p then ⟨0, 0, 0⟩ else ⟨255, 255, 255⟩))

/-- Modelled from the spec: the host canvas boundary
(`ctx.getImageData(0, 0, width, height)`) through which the Segmenter
receives its pixel buffer is not part of the repository's sources.  Per
the platform contract it throws an `IndexSizeError` when the requested
width or height is zero, and the buffer it yields always has exactly
`width·height` pixels, so a buffer whose length does not match the
declared dimensions cannot reach the mask loop; we model that mismatch as
the second error case. -/
def getImageData (w h : ℕ) (data : List RGB) : Except String (List RGB) :=
  if w * h = 0 then
    .error "IndexSizeError: the source width or height is 0"
  else if data.length ≠ w * h then
    .error "invalid frame: buffer length does not match the declared dimensions"
  else .ok data

/-- The Segmenter's full contract `segment(frame)`: fetch the pixel buffer
through the canvas boundary, then run `generateShadowMask`'s pipeline. -/
def segment (w h : ℕ) (data : List RGB) : Except String (ShadowData × List RGB) :=
  (getImageData w h data).map (fun d => generateShadowMask w h d)

/-! ### Analysis views of the mask loop -/

/-- The pixel the loop body reads at coordinate `c = (x, y)`. -/
def pixelAt (w : ℕ) (data : List RGB) (c : ℕ × ℕ) : RGB :=
  data.getD (c.2 * w + c.1) ⟨0, 0, 0⟩

/-- The coordinates of a coordinate list whose pixel passes the shadow test. -/
def shadowCoords (T w : ℕ) (data : List RGB) (L : List (ℕ × ℕ)) : List (ℕ × ℕ) :=
  L.filter (fun c => decide (isShadow T (pixelAt w data c)))

/-- The shadow coordinates of the frame actually processed by the
Segmenter: the visited coordinates whose pixel passes the shadow test at
the Segmenter's final threshold. -/
def segCoords (w h : ℕ) (data : List RGB) : List (ℕ × ℕ) :=
  shadowCoords (segThreshold w h data) w data (coords w h)

/-! ### Analysis views of the Otsu scan, and the claimed variant -/

/-- Total weighted intensity `Σ_{i<256} i·hist[i]` (`sum` in the source). -/
def otsuSum (hist : ℕ → ℕ) : ℚ :=
  ∑ i ∈ Finset.range 256, (i : ℚ) * hist i

/-- Background weight of the partition the code scores at candidate `t`:
`hist[t]` is added to `wB` before the variance is computed, so the
background class is `{i ≤ t}`. -/
def wLE (hist : ℕ → ℕ) (t : ℕ) : ℕ :=
  ∑ i ∈ Finset.range (t + 1), hist i

/-- Weighted background intensity of the class `{i ≤ t}`. -/
def sumLE (hist : ℕ → ℕ) (t : ℕ) : ℕ :=
  ∑ i ∈ Finset.range (t + 1), i * hist i

/-- A candidate `t` is non-degenerate for the code's `{≤ t}/{> t}` split:
both classes carry weight. -/
def validLE (hist : ℕ → ℕ) (total t : ℕ) : Prop :=
  0 < wLE hist t ∧ wLE hist t < total

/-- The inter-class variance the code computes at candidate `t`
(classes `{i ≤ t}` and `{i > t}`). -/
def varLE (hist : ℕ → ℕ) (total t : ℕ) : ℚ :=
  let wB : ℚ := wLE hist t
  let wF : ℚ := (total : ℚ) - wB
  let mB : ℚ := (sumLE hist t : ℚ) / wB
  let mF : ℚ := (otsuSum hist - sumLE hist t) / wF
  wB * wF * (mB - mF) * (mB - mF)

/-- Background weight in the CLAIMED convention: pixels `< t`. -/
def wLT (hist : ℕ → ℕ) (t : ℕ) : ℕ :=
  ∑ i ∈ Finset.range t, hist i

/-- Weighted background intensity in the claimed convention (`{i < t}`). -/
def sumLT (hist : ℕ → ℕ) (t : ℕ) : ℕ :=
  ∑ i ∈ Finset.range t, i * hist i

/-- Non-degeneracy in the claimed convention: both the `< t` and `≥ t`
classes carry weight. -/
def validLT (hist : ℕ → ℕ) (total t : ℕ) : Prop :=
  0 < wLT hist t ∧ wLT hist t < total

/-- Inter-class variance in the claimed convention
(classes `{i < t}` and `{i ≥ t}`). -/
def varLT (hist : ℕ → ℕ) (total t : ℕ) : ℚ :=
  let wB : ℚ := wLT hist t
  let wF : ℚ := (total : ℚ) - wB
  let mB : ℚ := (sumLT hist t : ℚ) / wB
  let mF : ℚ := (otsuSum hist - sumLT hist t) / wF
  wB * wF * (mB - mF) * (mB - mF)

/-- The claim's notion of the Otsu threshold: a candidate that maximizes
the inter-class variance over partitions into pixels `< t` and `≥ t`,
skipping candidates where either class weight is 0. -/
def claimOtsuMaximizer (hist : ℕ → ℕ) (total t : ℕ) : Prop :=
  t < 256 ∧ validLT hist total t ∧
    ∀ u, u < 256 → validLT hist total u → varLT hist total u ≤ varLT hist total t

/-- Analysis invariant for the Otsu scan: after the candidates below `k`
have been processed, `(varMax, thr)` is the best-so-far record — either
nothing positive has been seen (the initial `(0, 0)` stands and every
valid candidate so far scores `≤ 0`), or `thr` is the first valid
candidate attaining the running maximum `varMax`. -/
def otsuBest (hist : ℕ → ℕ) (total k : ℕ) (varMax : ℚ) (thr : ℕ) : Prop :=
  (varMax = 0 ∧ thr = 0 ∧
    ∀ u, u < k → validLE hist total u → varLE hist total u ≤ 0) ∨
  (thr < k ∧ validLE hist total thr ∧ varLE hist total thr = varMax ∧
    (∀ u, u < k → validLE hist total u → varLE hist total u ≤ varMax) ∧
    (∀ u, u < k → validLE hist total u → varLE hist total u = varMax → thr ≤ u))

/-- The bimodal 1×2 frame with pixels at grayscale 40 and 200, used to
exercise the Otsu threshold convention. -/
def bimodalFrame : List RGB := [⟨40, 40, 40⟩, ⟨200, 200, 200⟩]

/-! ### The spec's per-pixel classification rule, stated as written -/

/-- The spec's rounded perceptual luminance `round(0.299·R + 0.587·G + 0.114·B)`. -/
def specGray (p : RGB) : ℤ :=
  round (((0.299 : ℚ) * p.r + (0.587 : ℚ) * p.g + (0.114 : ℚ) * p.b))

/-- The spec's saturation `255·(max(R,G,B) - min(R,G,B)) / max(R,G,B)`,
with `0` when `max(R,G,B) = 0`. -/
def specSat (p : RGB) : ℚ :=
  if max p.r (max p.g p.b) = 0 then 0
  else (255 : ℚ) * ((max p.r (max p.g p.b) : ℚ) - (min p.r (min p.g p.b) : ℚ)) /
    (max p.r (max p.g p.b) : ℚ)

/-- The spec's classification rule:
`shadow iff gray < clampedThreshold AND (sat < 60 OR gray < 30)`. -/
def specShadowPixel (T : ℕ) (p : RGB) : Prop :=
  specGray p < (T : ℤ) ∧ (specSat p < 60 ∨ specGray p < 30)

/-! ### Stability Tracker (`processFrame` in `CameraAnalysis.tsx`) -/

/-- The per-frame metrics `processFrame` derives from a `ShadowData`
summary and pushes into the frame history.  The source stores JS numbers;
statistics later take square roots, so the embedding lives in `ℝ`. -/
structure FrameStats where
  area : ℝ
  width : ℝ
  height : ℝ
  cx : ℝ
  cy : ℝ
  intensity : ℝ

/-- `processFrame`'s derivation of the current frame's metrics:
`w = maxX - minX`, `h = maxY - minY`, centroid `(minX + w/2, minY + h/2)`,
`area = count`, `intensity = avgIntensity`. -/
noncomputable def toStats (d : ShadowData) : FrameStats :=
  let w : ℝ := (d.maxX : ℝ) - d.minX
  let h : ℝ := (d.maxY : ℝ) - d.minY
  { area := d.count
    width := w
    height := h
    cx := d.minX + w / 2
    cy := d.minY + h / 2
    intensity := (d.avgIntensity : ℝ) }

/-- `getStats`: mean of a list of values. -/
noncomputable def statMean (l : List ℝ) : ℝ := l.sum / l.length

/-- `getStats`: population standard deviation
`Math.sqrt(Σ (b - mean)² / n)`. -/
noncomputable def statStdDev (l : List ℝ) : ℝ :=
  Real.sqrt ((l.map (fun b => (b - statMean l) ^ 2)).sum / l.length)

/-- Total absolute frame-to-frame delta of a metric sequence:
`Σ_{i=1}^{n-1} |l[i] - l[i-1]|`. -/
noncomputable def totalDelta (l : List ℝ) : ℝ :=
  ((l.zip l.tail).map (fun q => |q.2 - q.1|)).sum

/-- The six-way stability conjunction `processFrame` evaluates on the
(full, 25-element) history window. -/
noncomputable def stabilityCond (history : List FrameStats) : Prop :=
  let areaMean := statMean (history.map FrameStats.area)
  let areaSd := statStdDev (history.map FrameStats.area)
  let widthSd := statStdDev (history.map FrameStats.width)
  let heightSd := statStdDev (history.map FrameStats.height)
  let xSd := statStdDev (history.map FrameStats.cx)
  let ySd := statStdDev (history.map FrameStats.cy)
  let intensityMean := statMean (history.map FrameStats.intensity)
  let avgWDelta := totalDelta (history.map FrameStats.width) / (history.length - 1 : ℝ)
  let avgHDelta := totalDelta (history.map FrameStats.height) / (history.length - 1 : ℝ)
  areaMean > 150 ∧
  areaSd < areaMean * 0.05 ∧
  (widthSd < 3.0 ∧ heightSd < 3.0) ∧
  (xSd < 2.0 ∧ ySd < 2.0) ∧
  (avgWDelta < 1.5 ∧ avgHDelta < 1.5) ∧
  intensityMean < 65

/-- The tracker's state: the frame history (a JS array, oldest first) and
the `isStable` flag (initially `false`). -/
structure TrackerState where
  history : List FrameStats
  stable : Prop

/-- The tracker's initial state: empty history, `isStable = false`. -/
def initTracker : TrackerState := ⟨[], False⟩

/-- One `processFrame` observation: push the frame's stats; if the history
then holds more than 25 entries, shift out the oldest and recompute the
stability verdict on the remaining 25-element window.  Otherwise the
verdict is left unchanged. -/
noncomputable def trackerStep (s : TrackerState) (f : FrameStats) : TrackerState :=
  let h' := s.history ++ [f]
  if 25 < h'.length then
    ⟨h'.tail, stabilityCond h'.tail⟩
  else ⟨h', s.stable⟩

/-- The spec's stability predicate over a full 25-observation window, with
the window size baked in: mean area > 150; area std-dev below 5% of the
area mean; width/height std-devs below 3 px; centroid std-devs below
2 px; mean absolute consecutive deltas of width and height (24 gaps)
below 1.5 px; mean intensity below 65. -/
noncomputable def specStable25 (l : List FrameStats) : Prop :=
  statMean (l.map FrameStats.area) > 150 ∧
  statStdDev (l.map FrameStats.area) < 0.05 * statMean (l.map FrameStats.area) ∧
  statStdDev (l.map FrameStats.width) < 3 ∧
  statStdDev (l.map FrameStats.height) < 3 ∧
  statStdDev (l.map FrameStats.cx) < 2 ∧
  statStdDev (l.map FrameStats.cy) < 2 ∧
  totalDelta (l.map FrameStats.width) / 24 < 1.5 ∧
  totalDelta (l.map FrameStats.height) / 24 < 1.5 ∧
  statMean (l.map FrameStats.intensity) < 65

/-- The acceptance-test observation of the spec: a `ShadowSummary` with
`area = 500`, a fixed bounding box, and `averageIntensity = 40`. -/
def calibSummary : ShadowData :=
  { count := 500, minX := 10, minY := 10, maxX := 130, maxY := 90, avgIntensity := 40 }

/-- The derived per-frame metrics of the acceptance-test observation. -/
noncomputable def calibObs : FrameStats := toStats calibSummary

/-! ### Geometric estimator (`estimateH` in `constants.ts`) -/

/-- `estimateH(L, A_hand, A_shadow)` from `constants.ts`:
guarded area-ratio inversion of the shadow-projection model. -/
noncomputable def estimateH (L A_hand A_shadow : ℝ) : ℝ :=
  if A_shadow ≤ 0 ∨ A_hand ≤ 0 then L
  else
    let ratio := A_hand / A_shadow
    if 1 < ratio then 0
    else max 0 (L - L * Real.sqrt ratio)

/-! ## Theorems -/

/-- `gray` computes the natural-division form `(299r + 587g + 114b + 500) / 1000`. -/
theorem gray_eq_div (p : RGB) :
    gray p = (299 * p.r + 587 * p.g + 114 * p.b + 500) / 1000 := by
  unfold gray
  have hq : (p.r * (299 / 1000 : ℚ) + p.g * (587 / 1000 : ℚ) + p.b * (114 / 1000 : ℚ))
      = ((299 * p.r + 587 * p.g + 114 * p.b : ℕ) : ℚ) / 1000 := by
    push_cast; ring
  rw [hq, round_eq]
  have h2 : ((299 * p.r + 587 * p.g + 114 * p.b : ℕ) : ℚ) / 1000 + 1 / 2
      = ((299 * p.r + 587 * p.g + 114 * p.b + 500 : ℕ) : ℚ) / 1000 := by
    push_cast; ring
  rw [h2, Int.floor_toNat, Nat.floor_div_ofNat, Nat.floor_natCast]

/-- `gray` of an 8-bit pixel is at most 255. -/
theorem gray_le_255 (p : RGB) (hr : p.r ≤ 255) (hg : p.g ≤ 255) (hb : p.b ≤ 255) :
    gray p ≤ 255 := by
  rw [gray_eq_div]
  have : 299 * p.r + 587 * p.g + 114 * p.b + 500 ≤ 255500 := by omega
  omega

theorem foldl_min_le_init (l : List ℕ) (a : ℕ) : l.foldl min a ≤ a := by
  induction l generalizing a with
  | nil => exact le_refl a
  | cons x l ih => exact le_trans (ih (min a x)) (min_le_left a x)

theorem foldl_min_le_of_mem (l : List ℕ) (a : ℕ) {x : ℕ} (hx : x ∈ l) :
    l.foldl min a ≤ x := by
  induction l generalizing a with
  | nil => cases hx
  | cons y l ih =>
    rcases List.mem_cons.mp hx with h | h
    · subst h; exact le_trans (foldl_min_le_init l (min a x)) (min_le_right a x)
    · exact ih _ h

theorem le_foldl_max_init (l : List ℕ) (a : ℕ) : a ≤ l.foldl max a := by
  induction l generalizing a with
  | nil => exact le_refl a
  | cons x l ih => exact le_trans (le_max_left a x) (ih (max a x))

theorem le_foldl_max_of_mem (l : List ℕ) (a : ℕ) {x : ℕ} (hx : x ∈ l) :
    x ≤ l.foldl max a := by
  induction l generalizing a with
  | nil => cases hx
  | cons y l ih =>
    rcases List.mem_cons.mp hx with h | h
    · subst h; exact le_trans (le_max_right a x) (le_foldl_max_init l (max a x))
    · exact ih _ h

theorem foldl_max_lt (l : List ℕ) (a b : ℕ) (ha : a < b) (hl : ∀ x ∈ l, x < b) :
    l.foldl max a < b := by
  induction l generalizing a with
  | nil => exact ha
  | cons x l ih =>
    exact ih (max a x) (max_lt ha (hl x (List.mem_cons_self x l)))
      fun y hy => hl y (List.mem_cons_of_mem _ hy)

theorem foldl_min_eq_zero (l : List ℕ) (a : ℕ) (h0 : (0 : ℕ) ∈ l) :
    l.foldl min a = 0 :=
  Nat.le_zero.mp (foldl_min_le_of_mem l a h0)

/-- Every element below a bound, sum of a nonempty list is strictly below
`length * bound`. -/
theorem sum_lt_length_mul (l : List ℕ) (T : ℕ) (hne : l ≠ [])
    (hb : ∀ x ∈ l, x < T) : l.sum < l.length * T := by
  induction l with
  | nil => exact absurd rfl hne
  | cons x l ih =>
    have hx := hb x (List.mem_cons_self x l)
    cases l with
    | nil => simpa using hx
    | cons y m =>
      have hl : (y :: m).sum < (y :: m).length * T :=
        ih (by simp) fun z hz => hb z (List.mem_cons_of_mem _ hz)
      have hexp : ((y :: m).length + 1) * T = (y :: m).length * T + T := by ring
      have e1 : (x :: y :: m).sum = x + (y :: m).sum := by simp
      have e2 : (x :: y :: m).length = (y :: m).length + 1 := List.length_cons ..
      rw [e1, e2, hexp]
      omega

/-- The mask loop folded along any coordinate list is the pointwise
combination of the initial state with the statistics of the shadow
coordinates. -/
theorem maskFold_char (T w : ℕ) (data : List RGB) (L : List (ℕ × ℕ)) (s : MaskState) :
    L.foldl (maskStep T w data) s =
      { count := s.count + (shadowCoords T w data L).length
        intensitySum := s.intensitySum +
          ((shadowCoords T w data L).map (fun c => gray (pixelAt w data c))).sum
        minX := ((shadowCoords T w data L).map Prod.fst).foldl min s.minX
        minY := ((shadowCoords T w data L).map Prod.snd).foldl min s.minY
        maxX := ((shadowCoords T w data L).map Prod.fst).foldl max s.maxX
        maxY := ((shadowCoords T w data L).map Prod.snd).foldl max s.maxY } := by
  induction L generalizing s with
  | nil => simp [shadowCoords]
  | cons c L ih =>
    by_cases hc : isShadow T (pixelAt w data c)
    · have hfil : shadowCoords T w data (c :: L) = c :: shadowCoords T w data L := by
        simp [shadowCoords, List.filter_cons, hc]
      have hc' : isShadow T (data.getD (c.2 * w + c.1) ⟨0, 0, 0⟩) := hc
      have hstep : maskStep T w data s c =
          { count := s.count + 1
            intensitySum := s.intensitySum + gray (pixelAt w data c)
            minX := min s.minX c.1
            minY := min s.minY c.2
            maxX := max s.maxX c.1
            maxY := max s.maxY c.2 } := by
        unfold maskStep
        rw [if_pos hc']
        rfl
      rw [List.foldl_cons, hstep, ih, hfil]
      simp only [List.length_cons, List.map_cons, List.sum_cons, List.foldl_cons,
        MaskState.mk.injEq]
      exact ⟨by omega, by omega, trivial, trivial, trivial, trivial⟩
    · have hfil : shadowCoords T w data (c :: L) = shadowCoords T w data L := by
        simp [shadowCoords, List.filter_cons, hc]
      have hc' : ¬ isShadow T (data.getD (c.2 * w + c.1) ⟨0, 0, 0⟩) := hc
      have hstep : maskStep T w data s c = s := by
        unfold maskStep
        rw [if_neg hc']
      rw [List.foldl_cons, hstep, ih, hfil]

theorem coords_length (w h : ℕ) : (coords w h).length = w * h := by
  unfold coords
  simp [Function.comp_def, List.map_const', Nat.mul_comm]

theorem mem_coords {w h : ℕ} {c : ℕ × ℕ} :
    c ∈ coords w h ↔ c.1 < w ∧ c.2 < h := by
  rcases c with ⟨x, y⟩
  simp only [coords, List.mem_flatMap, List.mem_map, List.mem_range]
  constructor
  · rintro ⟨y', hy', x', hx', h⟩
    cases h
    exact ⟨hx', hy'⟩
  · rintro ⟨hx, hy⟩
    exact ⟨y, hy, x, hx, rfl⟩

theorem gsm_count (w h : ℕ) (data : List RGB) :
    (generateShadowMask w h data).1.count = (segCoords w h data).length := by
  simp [generateShadowMask, maskFold_char, segCoords]

theorem gsm_minX (w h : ℕ) (data : List RGB) :
    (generateShadowMask w h data).1.minX =
      if 0 < (segCoords w h data).length then
        ((segCoords w h data).map Prod.fst).foldl min w else 0 := by
  simp [generateShadowMask, maskFold_char, segCoords]

theorem gsm_minY (w h : ℕ) (data : List RGB) :
    (generateShadowMask w h data).1.minY =
      if 0 < (segCoords w h data).length then
        ((segCoords w h data).map Prod.snd).foldl min h else 0 := by
  simp [generateShadowMask, maskFold_char, segCoords]

theorem gsm_maxX (w h : ℕ) (data : List RGB) :
    (generateShadowMask w h data).1.maxX =
      if 0 < (segCoords w h data).length then
        ((segCoords w h data).map Prod.fst).foldl max 0 else 0 := by
  simp [generateShadowMask, maskFold_char, segCoords]

theorem gsm_maxY (w h : ℕ) (data : List RGB) :
    (generateShadowMask w h data).1.maxY =
      if 0 < (segCoords w h data).length then
        ((segCoords w h data).map Prod.snd).foldl max 0 else 0 := by
  simp [generateShadowMask, maskFold_char, segCoords]

theorem gsm_avg (w h : ℕ) (data : List RGB) :
    (generateShadowMask w h data).1.avgIntensity =
      if 0 < (segCoords w h data).length then
        ((((segCoords w h data).map
            (fun c => gray (pixelAt w data c))).sum : ℕ) : ℚ) /
          ((segCoords w h data).length : ℚ)
      else 0 := by
  simp [generateShadowMask, maskFold_char, segCoords]

theorem gsm_mask (w h : ℕ) (data : List RGB) :
    (generateShadowMask w h data).2 =
      data.map (fun p =>
        if isShadow (segThreshold w h data) p then (⟨0, 0, 0⟩ : RGB)
        else ⟨255, 255, 255⟩) := rfl

/-- Members of the processed shadow-coordinate list are in-range
coordinates whose pixel passes the shadow test. -/
theorem mem_segCoords {w h : ℕ} {data : List RGB} {c : ℕ × ℕ}
    (hc : c ∈ segCoords w h data) :
    c.1 < w ∧ c.2 < h ∧ isShadow (segThreshold w h data) (pixelAt w data c) := by
  unfold segCoords shadowCoords at hc
  have h1 := List.mem_of_mem_filter hc
  have h2 := List.of_mem_filter hc
  rw [mem_coords] at h1
  exact ⟨h1.1, h1.2, of_decide_eq_true h2⟩

/-- The clamp keeps the final threshold at least 30. -/
theorem segThreshold_ge_30 (w h : ℕ) (data : List RGB) :
    30 ≤ segThreshold w h data :=
  le_min (le_max_right _ _) (by norm_num)

/-- The clamp keeps the final threshold at most 80. -/
theorem segThreshold_le_80 (w h : ℕ) (data : List RGB) :
    segThreshold w h data ≤ 80 :=
  min_le_right _ _

/-- A very dark pixel (`gray < 30`) is always classified as shadow: the
clamped threshold is at least 30 and the very-dark disjunct fires. -/
theorem isShadow_of_gray_lt_30 {p : RGB} (hg : gray p < 30) (w h : ℕ) (data : List RGB) :
    isShadow (segThreshold w h data) p :=
  ⟨lt_of_lt_of_le hg (segThreshold_ge_30 w h data), Or.inr hg⟩

/-- Grayscale of a uniform gray pixel is its channel value. -/
theorem gray_rgb_eq (v : ℕ) : gray ⟨v, v, v⟩ = v := by
  rw [gray_eq_div]
  dsimp only
  omega

/-- Evaluating the shadow-coordinate list of a 1×1 frame whose pixel is
very dark: the single coordinate is kept. -/
theorem segCoords_1x1 (p : RGB) (hp : gray p < 30) :
    segCoords 1 1 [p] = [(0, 0)] := by
  have hs : isShadow (segThreshold 1 1 [p]) (pixelAt 1 [p] (0, 0)) :=
    isShadow_of_gray_lt_30 hp 1 1 [p]
  have hd : (decide (isShadow (segThreshold 1 1 [p]) (pixelAt 1 [p] (0, 0)))) = true :=
    decide_eq_true hs
  unfold segCoords shadowCoords
  have hc : coords 1 1 = [(0, 0)] := rfl
  rw [hc, List.filter_cons, hd]
  simp

/-- A 1×1 frame with a very dark pixel has count 1. -/
theorem count_1x1 (p : RGB) (hp : gray p < 30) :
    (generateShadowMask 1 1 [p]).1.count = 1 := by
  rw [gsm_count, segCoords_1x1 p hp]
  rfl

/-- A 1×1 frame with a very dark pixel reports that pixel's grayscale as
its average intensity. -/
theorem avg_1x1 (p : RGB) (hp : gray p < 30) :
    (generateShadowMask 1 1 [p]).1.avgIntensity = (gray p : ℚ) := by
  rw [gsm_avg, segCoords_1x1 p hp]
  norm_num [pixelAt]

/-! ### C10: the geometric estimator stays within `[0, L]` -/

/-- C10.  For every `L > 0` and all real areas, `estimateH` returns `L`
when `A_shadow ≤ 0` or `A_hand ≤ 0`; returns `0` when
`A_hand > A_shadow > 0`; otherwise returns
`max(0, L - L·√(A_hand/A_shadow))`; and in every case the result lies in
`[0, L]` — the division by `A_shadow` is structurally guarded by the
first branch. -/
theorem estimateH_range (L A_hand A_shadow : ℝ) (hL : 0 < L) :
    (A_shadow ≤ 0 ∨ A_hand ≤ 0 → estimateH L A_hand A_shadow = L) ∧
    (0 < A_shadow → A_shadow < A_hand → estimateH L A_hand A_shadow = 0) ∧
    (0 < A_shadow → 0 < A_hand → A_hand ≤ A_shadow →
      estimateH L A_hand A_shadow = max 0 (L - L * Real.sqrt (A_hand / A_shadow))) ∧
    0 ≤ estimateH L A_hand A_shadow ∧ estimateH L A_hand A_shadow ≤ L := by
  unfold estimateH
  by_cases h1 : A_shadow ≤ 0 ∨ A_hand ≤ 0
  · rw [if_pos h1]
    refine ⟨fun _ => rfl, ?_, ?_, le_of_lt hL, le_refl L⟩
    · intro hs hlt
      rcases h1 with h | h
      · exact absurd hs (not_lt.mpr h)
      · exact absurd (lt_trans hs hlt) (not_lt.mpr h)
    · intro hs hh _
      rcases h1 with h | h
      · exact absurd hs (not_lt.mpr h)
      · exact absurd hh (not_lt.mpr h)
  · rw [if_neg h1]
    push_neg at h1
    obtain ⟨hs, hh⟩ := h1
    by_cases h2 : 1 < A_hand / A_shadow
    · rw [if_pos h2]
      refine ⟨fun hcon => ?_, fun _ _ => rfl, fun _ _ hle => ?_, le_refl 0, le_of_lt hL⟩
      · rcases hcon with h | h
        · exact absurd hs (not_lt.mpr h)
        · exact absurd hh (not_lt.mpr h)
      · exact absurd ((div_le_one hs).mpr hle) (not_le.mpr h2)
    · rw [if_neg h2]
      refine ⟨fun hcon => ?_, fun hs' hh' => ?_, fun _ _ _ => rfl, le_max_left 0 _, ?_⟩
      · rcases hcon with h | h
        · exact absurd hs (not_lt.mpr h)
        · exact absurd hh (not_lt.mpr h)
      · exact absurd ((one_lt_div hs').mpr hh') h2
      · exact max_le (le_of_lt hL)
          (sub_le_self L (mul_nonneg (le_of_lt hL) (Real.sqrt_nonneg _)))

/-- Witness for C10 at `L = 50`, `A_hand = 2000`, `A_shadow = 0`: the
guard branch fires and `L` is returned, inside `[0, 50]`. -/
theorem estimateH_range_witness :
    (0 : ℝ) < 50 ∧ estimateH 50 2000 0 = 50 :=
  ⟨by norm_num, (estimateH_range 50 2000 0 (by norm_num)).1 (Or.inl le_rfl)⟩

/-! ### C7: invalid input shape fails fast -/

/-- C7.  For a zero-area frame or a buffer whose length does not match
the declared dimensions, `segment` yields a descriptive error and no
ordinary summary.  (The shape check is the host canvas `getImageData`
boundary, modelled from the spec; see `getImageData`.) -/
theorem segment_invalid_shape (w h : ℕ) (data : List RGB)
    (hbad : w * h = 0 ∨ data.length ≠ w * h) :
    ∃ msg : String, segment w h data = .error msg := by
  unfold segment getImageData
  rcases hbad with hz | hlen
  · rw [if_pos hz]
    exact ⟨_, rfl⟩
  · by_cases hz : w * h = 0
    · rw [if_pos hz]
      exact ⟨_, rfl⟩
    · rw [if_neg hz, if_pos hlen]
      exact ⟨_, rfl⟩

/-- Witness for C7: a 0×5 frame is rejected with an error. -/
theorem segment_invalid_shape_witness :
    ∃ msg : String, segment 0 5 [] = .error msg :=
  segment_invalid_shape 0 5 [] (Or.inl rfl)

/-! ### C5: summary invariants -/

/-- C5.  For every frame of positive area, the summary satisfies
`0 ≤ pixelCount ≤ width·height`; when `pixelCount > 0` the bounding box
lies in `[0, width) × [0, height)` with `minX ≤ maxX` and `minY ≤ maxY`;
when `pixelCount = 0` the box is all zeros and `averageIntensity = 0`. -/
theorem segmenter_summary_invariants (w h : ℕ) (data : List RGB)
    (hpos : 1 ≤ w * h) :
    0 ≤ (generateShadowMask w h data).1.count ∧
    (generateShadowMask w h data).1.count ≤ w * h ∧
    (0 < (generateShadowMask w h data).1.count →
      (generateShadowMask w h data).1.minX < w ∧
      (generateShadowMask w h data).1.maxX < w ∧
      (generateShadowMask w h data).1.minY < h ∧
      (generateShadowMask w h data).1.maxY < h ∧
      (generateShadowMask w h data).1.minX ≤ (generateShadowMask w h data).1.maxX ∧
      (generateShadowMask w h data).1.minY ≤ (generateShadowMask w h data).1.maxY) ∧
    ((generateShadowMask w h data).1.count = 0 →
      (generateShadowMask w h data).1.minX = 0 ∧
      (generateShadowMask w h data).1.minY = 0 ∧
      (generateShadowMask w h data).1.maxX = 0 ∧
      (generateShadowMask w h data).1.maxY = 0 ∧
      (generateShadowMask w h data).1.avgIntensity = 0) := by
  refine ⟨Nat.zero_le _, ?_, ?_, ?_⟩
  · rw [gsm_count]
    calc (segCoords w h data).length ≤ (coords w h).length :=
          List.length_filter_le _ _
    _ = w * h := coords_length w h
  · intro hc
    rw [gsm_count] at hc
    obtain ⟨c₀, hc₀⟩ := List.exists_mem_of_length_pos hc
    obtain ⟨hx₀, hy₀, _⟩ := mem_segCoords hc₀
    have hxmem : c₀.1 ∈ (segCoords w h data).map Prod.fst :=
      List.mem_map_of_mem _ hc₀
    have hymem : c₀.2 ∈ (segCoords w h data).map Prod.snd :=
      List.mem_map_of_mem _ hc₀
    have hallx : ∀ x ∈ (segCoords w h data).map Prod.fst, x < w := by
      intro x hx
      obtain ⟨c, hcmem, hcx⟩ := List.mem_map.mp hx
      exact hcx ▸ (mem_segCoords hcmem).1
    have hally : ∀ y ∈ (segCoords w h data).map Prod.snd, y < h := by
      intro y hy
      obtain ⟨c, hcmem, hcy⟩ := List.mem_map.mp hy
      exact hcy ▸ (mem_segCoords hcmem).2.1
    rw [gsm_minX, gsm_minY, gsm_maxX, gsm_maxY, if_pos hc, if_pos hc, if_pos hc, if_pos hc]
    refine ⟨?_, ?_, ?_, ?_, ?_, ?_⟩
    · exact lt_of_le_of_lt (foldl_min_le_of_mem _ _ hxmem) hx₀
    · exact foldl_max_lt _ _ _ (Nat.pos_of_ne_zero (by omega)) hallx
    · exact lt_of_le_of_lt (foldl_min_le_of_mem _ _ hymem) hy₀
    · exact foldl_max_lt _ _ _ (Nat.pos_of_ne_zero (by omega)) hally
    · exact le_trans (foldl_min_le_of_mem _ _ hxmem) (le_foldl_max_of_mem _ _ hxmem)
    · exact le_trans (foldl_min_le_of_mem _ _ hymem) (le_foldl_max_of_mem _ _ hymem)
  · intro hc
    rw [gsm_count] at hc
    rw [gsm_minX, gsm_minY, gsm_maxX, gsm_maxY, gsm_avg]
    rw [hc]
    simp

/-- Witness for C5 on a concrete 1×1 frame with a shadow pixel. -/
theorem segmenter_summary_invariants_witness :
    1 ≤ 1 * 1 ∧
    (generateShadowMask 1 1 [⟨20, 20, 20⟩]).1.count ≤ 1 * 1 ∧
    (0 < (generateShadowMask 1 1 [⟨20, 20, 20⟩]).1.count →
      (generateShadowMask 1 1 [⟨20, 20, 20⟩]).1.minX < 1 ∧
      (generateShadowMask 1 1 [⟨20, 20, 20⟩]).1.maxX < 1 ∧
      (generateShadowMask 1 1 [⟨20, 20, 20⟩]).1.minY < 1 ∧
      (generateShadowMask 1 1 [⟨20, 20, 20⟩]).1.maxY < 1 ∧
      (generateShadowMask 1 1 [⟨20, 20, 20⟩]).1.minX ≤
        (generateShadowMask 1 1 [⟨20, 20, 20⟩]).1.maxX ∧
      (generateShadowMask 1 1 [⟨20, 20, 20⟩]).1.minY ≤
        (generateShadowMask 1 1 [⟨20, 20, 20⟩]).1.maxY) :=
  ⟨le_rfl, (segmenter_summary_invariants 1 1 [⟨20, 20, 20⟩] le_rfl).2.1,
    (segmenter_summary_invariants 1 1 [⟨20, 20, 20⟩] le_rfl).2.2.1⟩

/-! ### C9: positive count bounds the average intensity below the threshold -/

/-- C9.  Whenever the summary's `pixelCount` is positive, the average
intensity is strictly below the clamped threshold, which is at most 80 —
so `averageIntensity < 80`, strictly tighter than the `[0,255]` range. -/
theorem segmenter_avg_lt_threshold (w h : ℕ) (data : List RGB)
    (hc : 0 < (generateShadowMask w h data).1.count) :
    (generateShadowMask w h data).1.avgIntensity < (segThreshold w h data : ℚ) ∧
    segThreshold w h data ≤ 80 ∧
    (generateShadowMask w h data).1.avgIntensity < 80 := by
  rw [gsm_count] at hc
  have hT80 : segThreshold w h data ≤ 80 := min_le_right _ _
  have hne : (segCoords w h data).map (fun c => gray (pixelAt w data c)) ≠ [] := by
    intro hnil
    rw [← List.length_eq_zero] at hnil
    rw [List.length_map] at hnil
    omega
  have hlt : ∀ x ∈ (segCoords w h data).map (fun c => gray (pixelAt w data c)),
      x < segThreshold w h data := by
    intro x hx
    obtain ⟨c, hcmem, hcx⟩ := List.mem_map.mp hx
    exact hcx ▸ (mem_segCoords hcmem).2.2.1
  have hsum := sum_lt_length_mul _ _ hne hlt
  rw [List.length_map] at hsum
  have havg : (generateShadowMask w h data).1.avgIntensity < (segThreshold w h data : ℚ) := by
    rw [gsm_avg, if_pos hc]
    rw [div_lt_iff (by exact_mod_cast hc)]
    calc ((((segCoords w h data).map (fun c => gray (pixelAt w data c))).sum : ℕ) : ℚ)
        < (((segCoords w h data).length * segThreshold w h data : ℕ) : ℚ) := by
          exact_mod_cast hsum
    _ = (segThreshold w h data : ℚ) * ((segCoords w h data).length : ℚ) := by
          push_cast; ring
  refine ⟨havg, hT80, lt_of_lt_of_le havg ?_⟩
  exact_mod_cast hT80

/-- Witness for C9 on a 1×1 frame whose single pixel is a shadow pixel:
its count is positive and its average intensity (20) is below the
threshold. -/
theorem segmenter_avg_lt_threshold_witness :
    0 < (generateShadowMask 1 1 [⟨20, 20, 20⟩]).1.count ∧
    (generateShadowMask 1 1 [⟨20, 20, 20⟩]).1.avgIntensity < 80 := by
  have hg : gray (⟨20, 20, 20⟩ : RGB) < 30 := by rw [gray_rgb_eq]; omega
  have hpos : 0 < (generateShadowMask 1 1 [(⟨20, 20, 20⟩ : RGB)]).1.count := by
    rw [count_1x1 _ hg]
    omega
  exact ⟨hpos, (segmenter_avg_lt_threshold 1 1 [⟨20, 20, 20⟩] hpos).2.2⟩

/-! ### C3: per-pixel classification rule -/

/-- The spec's rounded luminance agrees with the source's. -/
theorem specGray_eq (p : RGB) : specGray p = (gray p : ℤ) := by
  unfold specGray gray
  have harg : ((0.299 : ℚ) * p.r + (0.587 : ℚ) * p.g + (0.114 : ℚ) * p.b)
      = (p.r * (299 / 1000 : ℚ) + p.g * (587 / 1000 : ℚ) + p.b * (114 / 1000 : ℚ)) := by
    norm_num
    ring
  rw [harg]
  have hnn : (0 : ℚ) ≤ p.r * (299 / 1000 : ℚ) + p.g * (587 / 1000 : ℚ) + p.b * (114 / 1000 : ℚ) := by
    positivity
  have hrnn : (0 : ℤ) ≤ round (p.r * (299 / 1000 : ℚ) + p.g * (587 / 1000 : ℚ) + p.b * (114 / 1000 : ℚ)) := by
    rw [round_eq]
    exact Int.floor_nonneg.mpr (by linarith)
  rw [Int.toNat_of_nonneg hrnn]

/-- The spec's saturation agrees with the source's. -/
theorem specSat_eq (p : RGB) : specSat p = saturation p := by
  unfold specSat saturation
  by_cases hM : max p.r (max p.g p.b) = 0
  · rw [if_pos hM, if_pos hM]
  · rw [if_neg hM, if_neg hM]
    push_cast
    ring

/-- The source's shadow test is exactly the spec's classification rule. -/
theorem isShadow_iff_spec (T : ℕ) (p : RGB) :
    isShadow T p ↔ specShadowPixel T p := by
  unfold isShadow specShadowPixel
  rw [specGray_eq, specSat_eq]
  constructor
  · rintro ⟨h1, h2⟩
    refine ⟨by exact_mod_cast h1, ?_⟩
    rcases h2 with h | h
    · exact Or.inl h
    · exact Or.inr (by exact_mod_cast h)
  · rintro ⟨h1, h2⟩
    refine ⟨by exact_mod_cast h1, ?_⟩
    rcases h2 with h | h
    · exact Or.inl h
    · exact Or.inr (by exact_mod_cast h)

/-- C3.  For every pixel of every frame, the Segmenter's mask marks the
pixel black (shadow) iff the spec's rule holds of it — `gray` the rounded
perceptual luminance, `sat` the guarded saturation — and otherwise marks
it white. -/
theorem segmenter_pixel_classification (w h : ℕ) (data : List RGB) (i : ℕ)
    (hi : i < data.length) :
    ((generateShadowMask w h data).2.getD i ⟨255, 255, 255⟩ = ⟨0, 0, 0⟩ ↔
      specShadowPixel (segThreshold w h data) (data.getD i ⟨0, 0, 0⟩)) ∧
    (¬ specShadowPixel (segThreshold w h data) (data.getD i ⟨0, 0, 0⟩) →
      (generateShadowMask w h data).2.getD i ⟨255, 255, 255⟩ = ⟨255, 255, 255⟩) := by
  rw [gsm_mask]
  have hi' : i < (data.map (fun p =>
      if isShadow (segThreshold w h data) p then (⟨0, 0, 0⟩ : RGB)
      else ⟨255, 255, 255⟩)).length := by
    rw [List.length_map]; exact hi
  rw [List.getD_eq_getElem _ _ hi', List.getElem_map, List.getD_eq_getElem _ _ hi]
  by_cases hs : isShadow (segThreshold w h data) data[i]
  · rw [if_pos hs]
    exact ⟨⟨fun _ => (isShadow_iff_spec _ _).mp hs, fun _ => rfl⟩,
      fun hns => absurd ((isShadow_iff_spec _ _).mp hs) hns⟩
  · rw [if_neg hs]
    constructor
    · constructor
      · intro hbad
        exact absurd hbad (by simp)
      · intro hspec
        exact absurd ((isShadow_iff_spec _ _).mpr hspec) hs
    · intro _
      rfl

/-- Witness for C3 on the 1×1 frame with pixel `(20,20,20)`: the mask
marks it black iff the spec rule holds (and the spec rule does hold). -/
theorem segmenter_pixel_classification_witness :
    (0 : ℕ) < ([⟨20, 20, 20⟩] : List RGB).length ∧
    ((generateShadowMask 1 1 [⟨20, 20, 20⟩]).2.getD 0 ⟨255, 255, 255⟩ = ⟨0, 0, 0⟩ ↔
      specShadowPixel (segThreshold 1 1 [⟨20, 20, 20⟩])
        (([⟨20, 20, 20⟩] : List RGB).getD 0 ⟨0, 0, 0⟩)) :=
  ⟨by simp, (segmenter_pixel_classification 1 1 [⟨20, 20, 20⟩] 0 (by simp)).1⟩

/-! ### C6: the all-black frame -/

/-- C6.  An all-black frame of positive dimensions yields
`pixelCount = width·height`, the full-frame bounding box
`(0, 0, width-1, height-1)`, and `averageIntensity = 0`. -/
theorem segmenter_all_black (w h : ℕ) (data : List RGB)
    (hw : 0 < w) (hh : 0 < h) (hlen : data.length = w * h)
    (hblack : ∀ p ∈ data, p = ⟨0, 0, 0⟩) :
    (generateShadowMask w h data).1.count = w * h ∧
    (generateShadowMask w h data).1.minX = 0 ∧
    (generateShadowMask w h data).1.minY = 0 ∧
    (generateShadowMask w h data).1.maxX = w - 1 ∧
    (generateShadowMask w h data).1.maxY = h - 1 ∧
    (generateShadowMask w h data).1.avgIntensity = 0 := by
  have hallpix : ∀ c ∈ coords w h, pixelAt w data c = ⟨0, 0, 0⟩ := by
    intro c hc
    rw [mem_coords] at hc
    have hidx : c.2 * w + c.1 < data.length := by
      rw [hlen]
      calc c.2 * w + c.1 < c.2 * w + w := by omega
      _ = (c.2 + 1) * w := by ring
      _ ≤ h * w := Nat.mul_le_mul_right w hc.2
      _ = w * h := Nat.mul_comm h w
    rw [pixelAt, List.getD_eq_getElem _ _ hidx]
    exact hblack _ (List.getElem_mem hidx)
  have hall : ∀ c ∈ coords w h, isShadow (segThreshold w h data) (pixelAt w data c) := by
    intro c hc
    rw [hallpix c hc]
    exact isShadow_of_gray_lt_30 (by rw [gray_rgb_eq]; omega) w h data
  have hS : segCoords w h data = coords w h := by
    unfold segCoords shadowCoords
    refine List.filter_eq_self.mpr ?_
    intro c hc
    exact decide_eq_true (hall c hc)
  have hcount : (segCoords w h data).length = w * h := by
    rw [hS, coords_length]
  have hpos : 0 < (segCoords w h data).length := by
    rw [hcount]
    exact Nat.mul_pos hw hh
  have hx00 : ((0 : ℕ), (0 : ℕ)) ∈ coords w h := mem_coords.mpr ⟨hw, hh⟩
  have hxw : ((w - 1 : ℕ), (0 : ℕ)) ∈ coords w h := mem_coords.mpr ⟨by omega, hh⟩
  have hyh : ((0 : ℕ), (h - 1 : ℕ)) ∈ coords w h := mem_coords.mpr ⟨hw, by omega⟩
  refine ⟨by rw [gsm_count, hcount], ?_, ?_, ?_, ?_, ?_⟩
  · rw [gsm_minX, if_pos hpos, hS]
    exact foldl_min_eq_zero _ _ (List.mem_map.mpr ⟨_, hx00, rfl⟩)
  · rw [gsm_minY, if_pos hpos, hS]
    exact foldl_min_eq_zero _ _ (List.mem_map.mpr ⟨_, hx00, rfl⟩)
  · rw [gsm_maxX, if_pos hpos, hS]
    have hub : ((coords w h).map Prod.fst).foldl max 0 < w := by
      refine foldl_max_lt _ _ _ hw ?_
      intro x hx
      obtain ⟨c, hcmem, hcx⟩ := List.mem_map.mp hx
      exact hcx ▸ (mem_coords.mp hcmem).1
    have hlb : w - 1 ≤ ((coords w h).map Prod.fst).foldl max 0 :=
      le_foldl_max_of_mem _ _ (List.mem_map.mpr ⟨_, hxw, rfl⟩)
    omega
  · rw [gsm_maxY, if_pos hpos, hS]
    have hub : ((coords w h).map Prod.snd).foldl max 0 < h := by
      refine foldl_max_lt _ _ _ hh ?_
      intro y hy
      obtain ⟨c, hcmem, hcy⟩ := List.mem_map.mp hy
      exact hcy ▸ (mem_coords.mp hcmem).2
    have hlb : h - 1 ≤ ((coords w h).map Prod.snd).foldl max 0 :=
      le_foldl_max_of_mem _ _ (List.mem_map.mpr ⟨_, hyh, rfl⟩)
    omega
  · rw [gsm_avg, if_pos hpos]
    have hzero : ((segCoords w h data).map
        (fun c => gray (pixelAt w data c))).sum = 0 := by
      refine List.sum_eq_zero ?_
      intro x hx
      obtain ⟨c, hcmem, hcx⟩ := List.mem_map.mp hx
      rw [hS] at hcmem
      rw [← hcx, hallpix c hcmem, gray_rgb_eq]
    rw [hzero]
    norm_num

/-- Witness for C6: the 1×1 all-black frame. -/
theorem segmenter_all_black_witness :
    (generateShadowMask 1 1 [⟨0, 0, 0⟩]).1.count = 1 * 1 ∧
    (generateShadowMask 1 1 [⟨0, 0, 0⟩]).1.maxX = 1 - 1 ∧
    (generateShadowMask 1 1 [⟨0, 0, 0⟩]).1.avgIntensity = 0 := by
  have := segmenter_all_black 1 1 [⟨0, 0, 0⟩] one_pos one_pos rfl
    (by intro p hp; simpa using hp)
  exact ⟨this.1, this.2.2.2.1, this.2.2.2.2.2⟩

/-! ### C1 / C4: the Stability Tracker -/

theorem statMean_replicate (n : ℕ) (hn : 0 < n) (x : ℝ) :
    statMean (List.replicate n x) = x := by
  unfold statMean
  rw [List.sum_replicate, List.length_replicate, nsmul_eq_mul]
  field_simp

theorem statStdDev_replicate (n : ℕ) (hn : 0 < n) (x : ℝ) :
    statStdDev (List.replicate n x) = 0 := by
  unfold statStdDev
  rw [statMean_replicate n hn x, List.map_replicate]
  simp

theorem zip_replicate_succ {α : Type} (n : ℕ) (x : α) :
    (List.replicate (n + 1) x).zip (List.replicate n x) =
      List.replicate n (x, x) := by
  induction n with
  | zero => rfl
  | succ m ih =>
    show ((x :: List.replicate (m + 1) x).zip (x :: List.replicate m x)) = _
    rw [List.zip_cons_cons, ih]
    rfl

theorem zip_tail_replicate {α : Type} (n : ℕ) (x : α) :
    (List.replicate n x).zip (List.replicate n x).tail =
      List.replicate (n - 1) (x, x) := by
  cases n with
  | zero => rfl
  | succ m =>
    rw [List.tail_replicate]
    simpa using zip_replicate_succ m x

theorem totalDelta_replicate (n : ℕ) (x : ℝ) :
    totalDelta (List.replicate n x) = 0 := by
  unfold totalDelta
  rw [zip_tail_replicate, List.map_replicate]
  simp

/-- On a full 25-element window, the source's stability conjunction is
exactly the spec's stability predicate (with the 24 consecutive gaps and
the 5%-of-mean area bound spelled out). -/
theorem stabilityCond_iff_spec (l : List FrameStats) (hl : l.length = 25) :
    stabilityCond l ↔ specStable25 l := by
  unfold stabilityCond specStable25
  rw [hl]
  norm_num
  intro _
  constructor
  · rintro ⟨h2, ⟨h3, h4⟩, ⟨h5, h6⟩, ⟨h7, h8⟩, h9⟩
    rw [mul_comm] at h2
    exact ⟨h2, h3, h4, h5, h6, h7, h8, h9⟩
  · rintro ⟨h2, h3, h4, h5, h6, h7, h8, h9⟩
    rw [mul_comm] at h2
    exact ⟨h2, ⟨h3, h4⟩, ⟨h5, h6⟩, ⟨h7, h8⟩, h9⟩

theorem calibObs_area : calibObs.area = 500 := by
  simp [calibObs, toStats, calibSummary]

theorem calibObs_intensity : calibObs.intensity = 40 := by
  norm_num [calibObs, toStats, calibSummary]

/-- The stability conjunction holds on 25 identical calibration
observations: every standard deviation and every consecutive delta is 0. -/
theorem stabilityCond_calib : stabilityCond (List.replicate 25 calibObs) := by
  unfold stabilityCond
  simp only [List.map_replicate, List.length_replicate]
  rw [statMean_replicate 25 (by norm_num), statMean_replicate 25 (by norm_num),
    statStdDev_replicate 25 (by norm_num), statStdDev_replicate 25 (by norm_num),
    statStdDev_replicate 25 (by norm_num), statStdDev_replicate 25 (by norm_num),
    statStdDev_replicate 25 (by norm_num), totalDelta_replicate, totalDelta_replicate,
    calibObs_area, calibObs_intensity]
  norm_num

/-- C1.  Observing a frame on a tracker whose window already holds its
full capacity of 25 observations makes the tracker report stable = true
iff the six spec conditions hold of the updated 25-element window. -/
theorem tracker_stable_iff_conditions (s : TrackerState) (f : FrameStats)
    (hlen : s.history.length = 25) :
    ((trackerStep s f).stable ↔ specStable25 (s.history.tail ++ [f])) := by
  unfold trackerStep
  have hlen' : (s.history ++ [f]).length = 26 := by
    simp [hlen]
  rw [if_pos (by rw [hlen']; norm_num)]
  have htail : (s.history ++ [f]).tail = s.history.tail ++ [f] := by
    cases hhist : s.history with
    | nil => rw [hhist] at hlen; simp at hlen
    | cons a t => rfl
  dsimp only
  rw [htail]
  apply stabilityCond_iff_spec
  rw [List.length_append, List.length_tail, hlen]
  simp

/-- Witness for C1: a tracker holding 25 identical calibration
observations goes (stays) stable on the next identical observation. -/
theorem tracker_stable_iff_conditions_witness :
    (List.replicate 25 calibObs : List FrameStats).length = 25 ∧
    (trackerStep ⟨List.replicate 25 calibObs, False⟩ calibObs).stable := by
  have hlen : (List.replicate 25 calibObs : List FrameStats).length = 25 :=
    List.length_replicate ..
  refine ⟨hlen, ?_⟩
  refine (tracker_stable_iff_conditions ⟨List.replicate 25 calibObs, False⟩ calibObs
    hlen).mpr ?_
  show specStable25 ((List.replicate 25 calibObs).tail ++ [calibObs])
  have heq : (List.replicate 25 calibObs).tail ++ [calibObs] =
      List.replicate 25 calibObs := by
    rw [List.tail_replicate, ← List.replicate_succ']
  rw [heq]
  exact (stabilityCond_iff_spec _ (List.length_replicate ..)).mp stabilityCond_calib

/-- Folding up to 25 observations from the empty tracker just accumulates
them; the stability flag stays at its initial `false`. -/
theorem foldl_trackerStep_le (f : FrameStats) :
    ∀ k, k ≤ 25 → List.foldl trackerStep initTracker (List.replicate k f) =
      ⟨List.replicate k f, False⟩ := by
  intro k
  induction k with
  | zero => intro _; rfl
  | succ m ih =>
    intro hk
    rw [List.replicate_succ' m f, List.foldl_append, ih (by omega)]
    simp only [List.foldl_cons, List.foldl_nil]
    unfold trackerStep
    have hone : ([f] : List FrameStats).length = 1 := rfl
    have hcond : ¬ 25 < ((List.replicate m f : List FrameStats) ++ [f]).length := by
      rw [List.length_append, List.length_replicate, hone]
      omega
    rw [if_neg hcond]

/-- C4 counterexample: feeding exactly 25 identical calibration
observations into a tracker starting from an empty history leaves
`stable = false` — the source only evaluates stability once the history
EXCEEDS 25 entries, so the 25th observation does not trigger it. -/
theorem tracker_25_identical_not_stable :
    ¬ (List.foldl trackerStep initTracker (List.replicate 25 calibObs)).stable := by
  rw [foldl_trackerStep_le calibObs 25 le_rfl]
  exact id

/-- Observing one more identical frame on a full 25-window re-evaluates
stability on the unchanged window. -/
theorem step_full_window (f : FrameStats) (P : Prop) :
    trackerStep ⟨List.replicate 25 f, P⟩ f =
      ⟨List.replicate 25 f, stabilityCond (List.replicate 25 f)⟩ := by
  unfold trackerStep
  have h26 : ((List.replicate 25 f : List FrameStats) ++ [f]).length = 26 := by simp
  rw [if_pos (by rw [h26]; norm_num)]
  have htl : ((List.replicate 25 f : List FrameStats) ++ [f]).tail =
      List.replicate 25 f := by
    rw [← List.replicate_succ', List.tail_replicate]
  rw [htl]

theorem foldl_trackerStep_ge26 (f : FrameStats) :
    ∀ m, List.foldl trackerStep initTracker (List.replicate (26 + m) f) =
      ⟨List.replicate 25 f, stabilityCond (List.replicate 25 f)⟩ := by
  intro m
  induction m with
  | zero =>
    have h26 : 26 + 0 = 25 + 1 := rfl
    rw [h26, List.replicate_succ', List.foldl_append, foldl_trackerStep_le f 25 le_rfl]
    simp only [List.foldl_cons, List.foldl_nil]
    exact step_full_window f False
  | succ k ih =>
    have hidx : 26 + (k + 1) = (26 + k) + 1 := by omega
    rw [hidx, List.replicate_succ', List.foldl_append, ih]
    simp only [List.foldl_cons, List.foldl_nil]
    exact step_full_window f _

/-- C4 amended: feeding 26 or more identical calibration observations
(area = 500, fixed box, intensity = 40) into a tracker starting from an
empty history yields stable = true — the verdict is first computed on
the 26th observation, once the history exceeds the window capacity. -/
theorem tracker_26_identical_stable (n : ℕ) (hn : 26 ≤ n) :
    (List.foldl trackerStep initTracker (List.replicate n calibObs)).stable := by
  obtain ⟨m, rfl⟩ := Nat.exists_eq_add_of_le hn
  rw [foldl_trackerStep_ge26 calibObs m]
  exact stabilityCond_calib

set_option maxRecDepth 4000 in
/-- Witness for the amended C4 at exactly 26 observations. -/
theorem tracker_26_identical_stable_witness :
    26 ≤ 26 ∧
    (List.foldl trackerStep initTracker (List.replicate 26 calibObs)).stable := by
  refine ⟨le_rfl, ?_⟩
  exact tracker_26_identical_stable 26 le_rfl

/-! ### Histogram counting lemmas -/

theorem frameHist_cons (p : RGB) (l : List RGB) (t : ℕ) :
    frameHist (p :: l) t = frameHist l t + (if gray p = t then 1 else 0) := by
  unfold frameHist
  rw [List.countP_cons]
  by_cases hp : gray p = t
  · simp [hp]
  · simp [hp]

/-- First moment of the histogram below `n` counts the pixels whose
grayscale is below `n`. -/
theorem sum_frameHist_range (data : List RGB) (n : ℕ) :
    ∑ t ∈ Finset.range n, frameHist data t =
      data.countP (fun p => decide (gray p < n)) := by
  induction data with
  | nil => simp [frameHist]
  | cons p l ih =>
    calc ∑ t ∈ Finset.range n, frameHist (p :: l) t
        = ∑ t ∈ Finset.range n, (frameHist l t + if gray p = t then 1 else 0) :=
          Finset.sum_congr rfl (fun t _ => frameHist_cons p l t)
    _ = (∑ t ∈ Finset.range n, frameHist l t) +
          ∑ t ∈ Finset.range n, (if gray p = t then 1 else 0) :=
          Finset.sum_add_distrib
    _ = l.countP (fun p => decide (gray p < n)) +
          (if gray p ∈ Finset.range n then 1 else 0) := by
          rw [ih, Finset.sum_ite_eq]
    _ = (p :: l).countP (fun p => decide (gray p < n)) := by
          rw [List.countP_cons]
          by_cases hp : gray p < n
          · simp [hp, Finset.mem_range]
          · simp [hp, Finset.mem_range]

/-- Weighted first moment of the histogram below `n` sums the grayscales
of the pixels whose grayscale is below `n`. -/
theorem sum_mul_frameHist_range (data : List RGB) (n : ℕ) :
    ∑ t ∈ Finset.range n, t * frameHist data t =
      ((data.filter (fun p => decide (gray p < n))).map gray).sum := by
  induction data with
  | nil => simp [frameHist]
  | cons p l ih =>
    have hterm : ∀ t, t * frameHist (p :: l) t =
        t * frameHist l t + (if gray p = t then t else 0) := by
      intro t
      rw [frameHist_cons]
      by_cases hp : gray p = t
      · simp [hp, Nat.mul_add]
      · simp [hp]
    calc ∑ t ∈ Finset.range n, t * frameHist (p :: l) t
        = ∑ t ∈ Finset.range n, (t * frameHist l t + if gray p = t then t else 0) :=
          Finset.sum_congr rfl (fun t _ => hterm t)
    _ = (∑ t ∈ Finset.range n, t * frameHist l t) +
          ∑ t ∈ Finset.range n, (if gray p = t then t else 0) :=
          Finset.sum_add_distrib
    _ = ((l.filter (fun p => decide (gray p < n))).map gray).sum +
          (if gray p ∈ Finset.range n then gray p else 0) := by
          rw [ih]
          congr 1
          have := Finset.sum_ite_eq (Finset.range n) (gray p) (fun t => t)
          simpa using this
    _ = (((p :: l).filter (fun p => decide (gray p < n))).map gray).sum := by
          rw [List.filter_cons]
          by_cases hp : gray p < n
          · simp [hp, Finset.mem_range, Nat.add_comm]
          · simp [hp, Finset.mem_range]

/-- On a well-formed 8-bit frame the histogram's 256 bins sum to the
pixel count. -/
theorem sum_frameHist (data : List RGB) (hpix : WfPixels data) :
    ∑ t ∈ Finset.range 256, frameHist data t = data.length := by
  rw [sum_frameHist_range]
  rw [List.countP_eq_length]
  intro p hp
  have := gray_le_255 p (hpix p hp).1 (hpix p hp).2.1 (hpix p hp).2.2
  simp
  omega

/-! ### Characterization of the Otsu scan -/

theorem wLE_mono (hist : ℕ → ℕ) {t u : ℕ} (h : t ≤ u) :
    wLE hist t ≤ wLE hist u := by
  unfold wLE
  exact Finset.sum_le_sum_of_subset (Finset.range_subset.mpr (by omega))

theorem wLE_le_total (hist : ℕ → ℕ) {total : ℕ}
    (htotal : total = ∑ i ∈ Finset.range 256, hist i) {t : ℕ} (ht : t < 256) :
    wLE hist t ≤ total := by
  rw [htotal]
  unfold wLE
  exact Finset.sum_le_sum_of_subset (Finset.range_subset.mpr (by omega))

/-- Every non-degenerate candidate scores strictly positive inter-class
variance: the background mean is at most `t` while the foreground mean is
at least `t + 1`. -/
theorem varLE_pos (hist : ℕ → ℕ) {total : ℕ}
    (htotal : total = ∑ i ∈ Finset.range 256, hist i) {t : ℕ} (ht : t < 256)
    (hv : validLE hist total t) : 0 < varLE hist total t := by
  obtain ⟨hpos, hlt⟩ := hv
  have hwB : (0 : ℚ) < (wLE hist t : ℚ) := by exact_mod_cast hpos
  have hwF : (0 : ℚ) < (total : ℚ) - (wLE hist t : ℚ) := by
    have : (wLE hist t : ℚ) < (total : ℚ) := by exact_mod_cast hlt
    linarith
  -- background mean is at most t
  have hsB : sumLE hist t ≤ t * wLE hist t := by
    unfold sumLE wLE
    rw [Finset.mul_sum]
    refine Finset.sum_le_sum ?_
    intro i hi
    rw [Finset.mem_range] at hi
    exact Nat.mul_le_mul_right _ (by omega)
  have hmB : (sumLE hist t : ℚ) / (wLE hist t : ℚ) ≤ t := by
    rw [div_le_iff hwB]
    calc (sumLE hist t : ℚ) ≤ ((t * wLE hist t : ℕ) : ℚ) := by exact_mod_cast hsB
    _ = (t : ℚ) * (wLE hist t : ℚ) := by push_cast; ring
  -- foreground: the remaining mass lives at grayscales ≥ t + 1
  have hsplit : otsuSum hist - (sumLE hist t : ℚ) =
      ∑ i ∈ Finset.Ico (t + 1) 256, (i : ℚ) * hist i := by
    unfold otsuSum sumLE
    have hr : Finset.range 256 = Finset.Ico 0 256 := by rw [Finset.range_eq_Ico]
    have hr2 : Finset.range (t + 1) = Finset.Ico 0 (t + 1) := by rw [Finset.range_eq_Ico]
    rw [hr, hr2, ← Finset.sum_Ico_consecutive _ (Nat.zero_le (t + 1)) (by omega : t + 1 ≤ 256)]
    push_cast
    ring
  have hwFsplit : (total : ℚ) - (wLE hist t : ℚ) =
      ∑ i ∈ Finset.Ico (t + 1) 256, (hist i : ℚ) := by
    rw [htotal]
    unfold wLE
    have hr : Finset.range 256 = Finset.Ico 0 256 := by rw [Finset.range_eq_Ico]
    have hr2 : Finset.range (t + 1) = Finset.Ico 0 (t + 1) := by rw [Finset.range_eq_Ico]
    rw [hr, hr2, ← Finset.sum_Ico_consecutive _ (Nat.zero_le (t + 1)) (by omega : t + 1 ≤ 256)]
    push_cast
    ring
  have hmF : ((t : ℚ) + 1) * ((total : ℚ) - (wLE hist t : ℚ)) ≤
      otsuSum hist - (sumLE hist t : ℚ) := by
    rw [hsplit, hwFsplit, Finset.mul_sum]
    refine Finset.sum_le_sum ?_
    intro i hi
    rw [Finset.mem_Ico] at hi
    have hle : ((t : ℚ) + 1) ≤ (i : ℚ) := by
      have hc := (Nat.cast_le (α := ℚ)).mpr hi.1
      push_cast at hc
      exact hc
    exact mul_le_mul_of_nonneg_right hle (Nat.cast_nonneg _)
  have hmF' : (t : ℚ) + 1 ≤ (otsuSum hist - (sumLE hist t : ℚ)) /
      ((total : ℚ) - (wLE hist t : ℚ)) := by
    rw [le_div_iff hwF]
    exact hmF
  -- the two class means are separated by at least 1
  have hd : (sumLE hist t : ℚ) / (wLE hist t : ℚ) -
      (otsuSum hist - (sumLE hist t : ℚ)) / ((total : ℚ) - (wLE hist t : ℚ)) < 0 := by
    linarith
  unfold varLE
  have hsq : 0 < ((sumLE hist t : ℚ) / (wLE hist t : ℚ) -
      (otsuSum hist - (sumLE hist t : ℚ)) / ((total : ℚ) - (wLE hist t : ℚ))) *
      ((sumLE hist t : ℚ) / (wLE hist t : ℚ) -
      (otsuSum hist - (sumLE hist t : ℚ)) / ((total : ℚ) - (wLE hist t : ℚ))) :=
    mul_pos_of_neg_of_neg hd hd
  have := mul_pos (mul_pos hwB hwF) hsq
  calc (0 : ℚ) < ((wLE hist t : ℚ) * ((total : ℚ) - (wLE hist t : ℚ))) *
      (((sumLE hist t : ℚ) / (wLE hist t : ℚ) -
        (otsuSum hist - (sumLE hist t : ℚ)) / ((total : ℚ) - (wLE hist t : ℚ))) *
       ((sumLE hist t : ℚ) / (wLE hist t : ℚ) -
        (otsuSum hist - (sumLE hist t : ℚ)) / ((total : ℚ) - (wLE hist t : ℚ)))) := this
  _ = _ := by ring

theorem otsuBest_succ_invalid {hist : ℕ → ℕ} {total k : ℕ} {varMax : ℚ} {thr : ℕ}
    (hb : otsuBest hist total k varMax thr) (hinv : ¬ validLE hist total k) :
    otsuBest hist total (k + 1) varMax thr := by
  rcases hb with ⟨h1, h2, h3⟩ | ⟨h1, h2, h3, h4, h5⟩
  · left
    refine ⟨h1, h2, ?_⟩
    intro u hu hv
    rcases Nat.lt_succ_iff_lt_or_eq.mp hu with h | h
    · exact h3 u h hv
    · subst h; exact absurd hv hinv
  · right
    refine ⟨by omega, h2, h3, ?_, ?_⟩
    · intro u hu hv
      rcases Nat.lt_succ_iff_lt_or_eq.mp hu with h | h
      · exact h4 u h hv
      · subst h; exact absurd hv hinv
    · intro u hu hv heq
      rcases Nat.lt_succ_iff_lt_or_eq.mp hu with h | h
      · exact h5 u h hv heq
      · subst h; exact absurd hv hinv

theorem otsuBest_succ_le {hist : ℕ → ℕ} {total k : ℕ} {varMax : ℚ} {thr : ℕ}
    (hb : otsuBest hist total k varMax thr) (hvk : validLE hist total k)
    (hle : varLE hist total k ≤ varMax) :
    otsuBest hist total (k + 1) varMax thr := by
  rcases hb with ⟨h1, h2, h3⟩ | ⟨h1, h2, h3, h4, h5⟩
  · left
    refine ⟨h1, h2, ?_⟩
    intro u hu hv
    rcases Nat.lt_succ_iff_lt_or_eq.mp hu with h | h
    · exact h3 u h hv
    · subst h; rw [← h1]; exact hle
  · right
    refine ⟨by omega, h2, h3, ?_, ?_⟩
    · intro u hu hv
      rcases Nat.lt_succ_iff_lt_or_eq.mp hu with h | h
      · exact h4 u h hv
      · subst h; exact hle
    · intro u hu hv heq
      rcases Nat.lt_succ_iff_lt_or_eq.mp hu with h | h
      · exact h5 u h hv heq
      · subst h; exact le_of_lt h1

theorem otsuBest_succ_new {hist : ℕ → ℕ} {total k : ℕ} {varMax : ℚ} {thr : ℕ}
    (hb : otsuBest hist total k varMax thr) (hvk : validLE hist total k)
    (hgt : varMax < varLE hist total k) :
    otsuBest hist total (k + 1) (varLE hist total k) k := by
  have hprev : ∀ u, u < k → validLE hist total u → varLE hist total u ≤ varMax := by
    rcases hb with ⟨h1, _, h3⟩ | ⟨_, _, _, h4, _⟩
    · intro u hu hv
      rw [h1]
      exact h3 u hu hv
    · exact h4
  right
  refine ⟨by omega, hvk, rfl, ?_, ?_⟩
  · intro u hu hv
    rcases Nat.lt_succ_iff_lt_or_eq.mp hu with h | h
    · exact le_trans (hprev u h hv) (le_of_lt hgt)
    · subst h; exact le_refl _
  · intro u hu hv heq
    rcases Nat.lt_succ_iff_lt_or_eq.mp hu with h | h
    · have := lt_of_le_of_lt (hprev u h hv) hgt
      rw [heq] at this
      exact absurd this (lt_irrefl _)
    · omega

theorem otsuBest_extend {hist : ℕ → ℕ} {total k K : ℕ} {varMax : ℚ} {thr : ℕ}
    (hkK : k ≤ K)
    (hb : otsuBest hist total k varMax thr)
    (hinv : ∀ u, k ≤ u → u < K → ¬ validLE hist total u) :
    otsuBest hist total K varMax thr := by
  rcases hb with ⟨h1, h2, h3⟩ | ⟨h1, h2, h3, h4, h5⟩
  · left
    refine ⟨h1, h2, ?_⟩
    intro u hu hv
    by_cases h : u < k
    · exact h3 u h hv
    · exact absurd hv (hinv u (by omega) hu)
  · right
    refine ⟨by omega, h2, h3, ?_, ?_⟩
    · intro u hu hv
      by_cases h : u < k
      · exact h4 u h hv
      · exact absurd hv (hinv u (by omega) hu)
    · intro u hu hv heq
      by_cases h : u < k
      · exact h5 u h hv heq
      · exact absurd hv (hinv u (by omega) hu)

/-- The one-step unfolding of the Otsu scan body. -/
theorem otsuLoop_cons (hist : ℕ → ℕ) (total sum : ℚ) (t : ℕ) (ts : List ℕ)
    (sumB wB varMax : ℚ) (thr : ℕ) :
    otsuLoop hist total sum (t :: ts) sumB wB varMax thr =
      if wB + hist t = 0 then
        otsuLoop hist total sum ts sumB (wB + hist t) varMax thr
      else if total - (wB + hist t) = 0 then thr
      else if varMax < (wB + hist t) * (total - (wB + hist t)) *
            ((sumB + t * hist t) / (wB + hist t) -
              (sum - (sumB + t * hist t)) / (total - (wB + hist t))) *
            ((sumB + t * hist t) / (wB + hist t) -
              (sum - (sumB + t * hist t)) / (total - (wB + hist t))) then
        otsuLoop hist total sum ts (sumB + t * hist t) (wB + hist t)
          ((wB + hist t) * (total - (wB + hist t)) *
            ((sumB + t * hist t) / (wB + hist t) -
              (sum - (sumB + t * hist t)) / (total - (wB + hist t))) *
            ((sumB + t * hist t) / (wB + hist t) -
              (sum - (sumB + t * hist t)) / (total - (wB + hist t)))) t
      else otsuLoop hist total sum ts (sumB + t * hist t) (wB + hist t) varMax thr :=
  rfl

/-- Main invariant of the Otsu scan: starting at candidate `t` with the
prefix sums of the processed candidates and a best-so-far record, the
returned threshold is a best record over all 256 candidates. -/
theorem otsuLoop_inv (hist : ℕ → ℕ) (total : ℕ)
    (htotal : total = ∑ i ∈ Finset.range 256, hist i) :
    ∀ (n t : ℕ), t + n = 256 →
    ∀ (sumB wB varMax : ℚ) (thr : ℕ),
      sumB = ((∑ i ∈ Finset.range t, i * hist i : ℕ) : ℚ) →
      wB = ((∑ i ∈ Finset.range t, hist i : ℕ) : ℚ) →
      otsuBest hist total t varMax thr →
      ∃ v, otsuBest hist total 256 v
        (otsuLoop hist (total : ℚ) (otsuSum hist) (List.range' t n) sumB wB varMax thr) := by
  intro n
  induction n with
  | zero =>
    intro t ht sumB wB varMax thr hsum hw hbest
    have ht' : t = 256 := by omega
    subst ht'
    exact ⟨varMax, hbest⟩
  | succ n ih =>
    intro t ht sumB wB varMax thr hsum hw hbest
    have ht256 : t < 256 := by omega
    rw [List.range'_succ, otsuLoop_cons]
    have hwB' : wB + (hist t : ℚ) = ((wLE hist t : ℕ) : ℚ) := by
      rw [hw]
      unfold wLE
      rw [Finset.sum_range_succ]
      push_cast
      ring
    have hsumB' : sumB + (t : ℚ) * (hist t : ℚ) = ((sumLE hist t : ℕ) : ℚ) := by
      rw [hsum]
      unfold sumLE
      rw [Finset.sum_range_succ]
      push_cast
      ring
    by_cases hz : wB + (hist t : ℚ) = 0
    · -- `continue`: the background class is still empty, candidate t is degenerate
      rw [if_pos hz]
      have hwle : wLE hist t = 0 := by
        have : ((wLE hist t : ℕ) : ℚ) = 0 := by rw [← hwB']; exact hz
        exact_mod_cast this
      have hht : hist t = 0 := by
        have := hwle
        unfold wLE at this
        rw [Finset.sum_range_succ] at this
        omega
      have hinvalid : ¬ validLE hist total t := by
        intro hv
        have h1 : 0 < wLE hist t := hv.1
        omega
      have hsum' : sumB = ((∑ i ∈ Finset.range (t + 1), i * hist i : ℕ) : ℚ) := by
        rw [Finset.sum_range_succ, hht, Nat.mul_zero, Nat.add_zero, hsum]
      have hw' : wB + (hist t : ℚ) = ((∑ i ∈ Finset.range (t + 1), hist i : ℕ) : ℚ) := hwB'
      exact ih (t + 1) (by omega) sumB (wB + hist t) varMax thr hsum' hw'
        (otsuBest_succ_invalid hbest hinvalid)
    · rw [if_neg hz]
      by_cases hzF : (total : ℚ) - (wB + hist t) = 0
      · -- `break`: the foreground class is empty from here on
        rw [if_pos hzF]
        have hwtot : wLE hist t = total := by
          have : ((wLE hist t : ℕ) : ℚ) = (total : ℚ) := by
            rw [← hwB']
            linarith [hzF]
          exact_mod_cast this
        refine ⟨varMax, otsuBest_extend (by omega) hbest ?_⟩
        intro u htu hu hv
        have hmono : wLE hist t ≤ wLE hist u := wLE_mono hist htu
        rw [hwtot] at hmono
        exact absurd hv.2 (not_lt.mpr hmono)
      · rw [if_neg hzF]
        -- candidate t is valid
        have hvalid : validLE hist total t := by
          constructor
          · by_contra hcon
            have h0 : wLE hist t = 0 := by omega
            apply hz
            rw [hwB', h0]
            norm_num
          · have hle : wLE hist t ≤ total := wLE_le_total hist htotal ht256
            rcases Nat.lt_or_ge (wLE hist t) total with h | h
            · exact h
            · have heq : wLE hist t = total := by omega
              exfalso
              apply hzF
              rw [hwB', heq]
              ring
        have hvar : (wB + hist t) * ((total : ℚ) - (wB + hist t)) *
              ((sumB + t * hist t) / (wB + hist t) -
                (otsuSum hist - (sumB + t * hist t)) / ((total : ℚ) - (wB + hist t))) *
              ((sumB + t * hist t) / (wB + hist t) -
                (otsuSum hist - (sumB + t * hist t)) / ((total : ℚ) - (wB + hist t))) =
            varLE hist total t := by
          rw [hwB', hsumB']
          rfl
        have hsum' : sumB + (t : ℚ) * hist t =
            ((∑ i ∈ Finset.range (t + 1), i * hist i : ℕ) : ℚ) := hsumB'
        have hw' : wB + (hist t : ℚ) =
            ((∑ i ∈ Finset.range (t + 1), hist i : ℕ) : ℚ) := hwB'
        rw [hvar]
        by_cases hlt : varMax < varLE hist total t
        · rw [if_pos hlt]
          exact ih (t + 1) (by omega) _ _ _ _ hsum' hw'
            (otsuBest_succ_new hbest hvalid hlt)
        · rw [if_neg hlt]
          exact ih (t + 1) (by omega) _ _ _ _ hsum' hw'
            (otsuBest_succ_le hbest hvalid (not_lt.mp hlt))

/-- Characterization of `computeOtsuThreshold`: when a non-degenerate
candidate exists, the returned threshold is the LEAST maximizer of the
inter-class variance over the code's `{≤ t}/{> t}` partitions; when none
exists the initial 0 is returned. -/
theorem computeOtsu_spec (hist : ℕ → ℕ) (total : ℕ)
    (htotal : total = ∑ i ∈ Finset.range 256, hist i) :
    ((∃ t, t < 256 ∧ validLE hist total t) →
      computeOtsuThreshold hist total < 256 ∧
      validLE hist total (computeOtsuThreshold hist total) ∧
      (∀ u, u < 256 → validLE hist total u →
        varLE hist total u ≤ varLE hist total (computeOtsuThreshold hist total)) ∧
      (∀ u, u < 256 → validLE hist total u →
        varLE hist total u = varLE hist total (computeOtsuThreshold hist total) →
        computeOtsuThreshold hist total ≤ u)) ∧
    ((¬ ∃ t, t < 256 ∧ validLE hist total t) →
      computeOtsuThreshold hist total = 0) := by
  have hinit : otsuBest hist total 0 0 0 :=
    Or.inl ⟨rfl, rfl, by intro u hu; omega⟩
  have h0 : (0 : ℚ) = ((∑ i ∈ Finset.range 0, i * hist i : ℕ) : ℚ) := by simp
  have h0' : (0 : ℚ) = ((∑ i ∈ Finset.range 0, hist i : ℕ) : ℚ) := by simp
  obtain ⟨v, hbest⟩ :=
    otsuLoop_inv hist total htotal 256 0 (by omega) 0 0 0 0 h0 h0' hinit
  have heq : computeOtsuThreshold hist total =
      otsuLoop hist (total : ℚ) (otsuSum hist) (List.range' 0 256) 0 0 0 0 := by
    unfold computeOtsuThreshold otsuSum
    rw [List.range_eq_range']
  rw [heq]
  rw [← heq] at hbest
  rw [heq] at hbest
  constructor
  · rintro ⟨t0, ht0, hv0⟩
    rcases hbest with ⟨_, _, h3⟩ | ⟨h1, h2, h3, h4, h5⟩
    · exact absurd (h3 t0 ht0 hv0) (not_le.mpr (varLE_pos hist htotal ht0 hv0))
    · refine ⟨h1, h2, ?_, ?_⟩
      · intro u hu huv
        rw [h3]
        exact h4 u hu huv
      · intro u hu huv hveq
        rw [h3] at hveq
        exact h5 u hu huv hveq
  · intro hnone
    rcases hbest with ⟨_, h2, _⟩ | ⟨h1, h2, _, _, _⟩
    · exact h2
    · exact absurd ⟨_, h1, h2⟩ hnone

/-! ### C2: the Otsu threshold convention -/

theorem wLE_bimodal (t : ℕ) :
    wLE (frameHist bimodalFrame) t =
      (if 40 ≤ t then 1 else 0) + (if 200 ≤ t then 1 else 0) := by
  unfold wLE
  rw [sum_frameHist_range]
  unfold bimodalFrame
  simp only [List.countP_cons, List.countP_nil, gray_rgb_eq, decide_eq_true_eq]
  split_ifs <;> omega

theorem sumLE_bimodal (t : ℕ) :
    sumLE (frameHist bimodalFrame) t =
      (if 40 ≤ t then 40 else 0) + (if 200 ≤ t then 200 else 0) := by
  unfold sumLE
  rw [sum_mul_frameHist_range]
  unfold bimodalFrame
  simp only [List.filter_cons, List.filter_nil, gray_rgb_eq, decide_eq_true_eq]
  split_ifs with h1 h2 h2 <;> simp [gray_rgb_eq] <;> omega

theorem validLE_bimodal (t : ℕ) :
    validLE (frameHist bimodalFrame) 2 t ↔ (40 ≤ t ∧ t ≤ 199) := by
  unfold validLE
  rw [wLE_bimodal]
  split_ifs <;> omega

theorem varLE_bimodal_eq (t u : ℕ) (ht : 40 ≤ t ∧ t ≤ 199) (hu : 40 ≤ u ∧ u ≤ 199) :
    varLE (frameHist bimodalFrame) 2 t = varLE (frameHist bimodalFrame) 2 u := by
  have hw : ∀ s, 40 ≤ s → s ≤ 199 → wLE (frameHist bimodalFrame) s = 1 := by
    intro s h1 h2
    rw [wLE_bimodal, if_pos h1, if_neg (by omega)]
  have hs : ∀ s, 40 ≤ s → s ≤ 199 → sumLE (frameHist bimodalFrame) s = 40 := by
    intro s h1 h2
    rw [sumLE_bimodal, if_pos h1, if_neg (by omega)]
  unfold varLE
  rw [hw t ht.1 ht.2, hw u hu.1 hu.2, hs t ht.1 ht.2, hs u hu.1 hu.2]

theorem bimodal_pixels_wf : WfPixels bimodalFrame := by
  intro p hp
  unfold bimodalFrame at hp
  rcases List.mem_cons.mp hp with rfl | hp'
  · exact ⟨by decide, by decide, by decide⟩
  · rcases List.mem_cons.mp hp' with rfl | hp''
    · exact ⟨by decide, by decide, by decide⟩
    · cases hp''

theorem bimodal_total : (2 : ℕ) = ∑ i ∈ Finset.range 256, frameHist bimodalFrame i := by
  rw [sum_frameHist bimodalFrame bimodal_pixels_wf]
  rfl

/-- On the bimodal frame the scan records threshold 40: the first
candidate whose `{≤ t}` class separates the two modes. -/
theorem otsu_bimodal : computeOtsuThreshold (frameHist bimodalFrame) 2 = 40 := by
  have hspec := computeOtsu_spec (frameHist bimodalFrame) 2 bimodal_total
  have hv40 : validLE (frameHist bimodalFrame) 2 40 :=
    (validLE_bimodal 40).mpr ⟨le_rfl, by omega⟩
  have hex : ∃ t, t < 256 ∧ validLE (frameHist bimodalFrame) 2 t :=
    ⟨40, by omega, hv40⟩
  obtain ⟨_, hvT, _, hleast⟩ := hspec.1 hex
  obtain ⟨hT1, hT2⟩ := (validLE_bimodal _).mp hvT
  have heq := varLE_bimodal_eq 40 (computeOtsuThreshold (frameHist bimodalFrame) 2)
    ⟨le_rfl, by omega⟩ ⟨hT1, hT2⟩
  have hle := hleast 40 (by omega) hv40 heq
  omega

theorem segThreshold_bimodal : segThreshold 1 2 bimodalFrame = 40 := by
  unfold segThreshold
  have h12 : (1 * 2 : ℕ) = 2 := rfl
  rw [h12, otsu_bimodal]
  omega

theorem wLT_bimodal_40 : wLT (frameHist bimodalFrame) 40 = 0 := by
  unfold wLT
  rw [sum_frameHist_range]
  unfold bimodalFrame
  simp [List.countP_cons, gray_rgb_eq]

/-- C2 counterexample: on a 1×2 frame with pixels of grayscale 40 and
200, the Segmenter's final threshold is 40, but no threshold maximizing
the inter-class variance in the CLAIMED convention (classes `< t` and
`≥ t`, degenerate classes skipped) clamps to 40 — clamping yields 40 only
for t = 40, and at t = 40 the `< 40` class has weight 0, which the claim
itself excludes.  The code's classes are `≤ t` and `> t`. -/
theorem segmenter_threshold_not_claim_otsu :
    ¬ ∃ t, claimOtsuMaximizer (frameHist bimodalFrame) (1 * 2) t ∧
      min (max t 30) 80 = segThreshold 1 2 bimodalFrame := by
  rintro ⟨t, ⟨ht256, hvt, hmax⟩, hclamp⟩
  rw [segThreshold_bimodal] at hclamp
  have ht40 : t = 40 := by omega
  subst ht40
  have h0 : wLT (frameHist bimodalFrame) 40 = 0 := wLT_bimodal_40
  have hpos : 0 < wLT (frameHist bimodalFrame) 40 := hvt.1
  omega

/-- C2 amended.  The Segmenter's final threshold is the clamp to
`[30, 80]` of the threshold `t*` that maximizes the inter-class variance
`wB·wF·(meanB − meanF)²` over partitions of the 256-bin histogram into
pixels `≤ t` (weight `wB = Σ_{i≤t} hist[i]`) and pixels `> t`
(`wF = total − wB`), skipping candidates where either class weight is 0
and taking the SMALLEST maximizer; when every candidate is degenerate the
pre-clamp threshold is 0 and the final threshold is 30. -/
theorem segmenter_threshold_otsu (w h : ℕ) (data : List RGB)
    (hwf : WfFrame w h data) (hpix : WfPixels data) :
    ((∃ t, t < 256 ∧ validLE (frameHist data) (w * h) t) →
      ∃ tstar, tstar < 256 ∧
        segThreshold w h data = min (max tstar 30) 80 ∧
        validLE (frameHist data) (w * h) tstar ∧
        (∀ u, u < 256 → validLE (frameHist data) (w * h) u →
          varLE (frameHist data) (w * h) u ≤ varLE (frameHist data) (w * h) tstar) ∧
        (∀ u, u < 256 → validLE (frameHist data) (w * h) u →
          varLE (frameHist data) (w * h) u = varLE (frameHist data) (w * h) tstar →
          tstar ≤ u)) ∧
    ((¬ ∃ t, t < 256 ∧ validLE (frameHist data) (w * h) t) →
      segThreshold w h data = 30) := by
  have htotal : w * h = ∑ i ∈ Finset.range 256, frameHist data i := by
    rw [sum_frameHist data hpix]
    exact hwf.symm
  have hspec := computeOtsu_spec (frameHist data) (w * h) htotal
  constructor
  · intro hex
    obtain ⟨h0, h1, h2, h3⟩ := hspec.1 hex
    exact ⟨computeOtsuThreshold (frameHist data) (w * h), h0, rfl, h1, h2, h3⟩
  · intro hnone
    unfold segThreshold
    rw [hspec.2 hnone]
    omega

/-- Witness for the amended C2 on the bimodal 1×2 frame, whose valid
candidate set is nonempty. -/
theorem segmenter_threshold_otsu_witness :
    WfFrame 1 2 bimodalFrame ∧
    (∃ t, t < 256 ∧ validLE (frameHist bimodalFrame) (1 * 2) t) ∧
    (∃ tstar, tstar < 256 ∧
      segThreshold 1 2 bimodalFrame = min (max tstar 30) 80 ∧
      validLE (frameHist bimodalFrame) (1 * 2) tstar ∧
      (∀ u, u < 256 → validLE (frameHist bimodalFrame) (1 * 2) u →
        varLE (frameHist bimodalFrame) (1 * 2) u ≤
          varLE (frameHist bimodalFrame) (1 * 2) tstar) ∧
      (∀ u, u < 256 → validLE (frameHist bimodalFrame) (1 * 2) u →
        varLE (frameHist bimodalFrame) (1 * 2) u =
          varLE (frameHist bimodalFrame) (1 * 2) tstar →
        tstar ≤ u)) := by
  have hwf : WfFrame 1 2 bimodalFrame := rfl
  have hex : ∃ t, t < 256 ∧ validLE (frameHist bimodalFrame) (1 * 2) t :=
    ⟨40, by omega, (validLE_bimodal 40).mpr ⟨le_rfl, by omega⟩⟩
  exact ⟨hwf, hex,
    (segmenter_threshold_otsu 1 2 bimodalFrame hwf bimodal_pixels_wf).1 hex⟩

/-! ### C8: re-running on the same (mutated) buffer -/

theorem idx_lt_of_mem_coords {w h : ℕ} {c : ℕ × ℕ} (hc : c ∈ coords w h) :
    c.2 * w + c.1 < w * h := by
  rw [mem_coords] at hc
  calc c.2 * w + c.1 < c.2 * w + w := by omega
  _ = (c.2 + 1) * w := by ring
  _ ≤ h * w := Nat.mul_le_mul_right w hc.2
  _ = w * h := Nat.mul_comm h w

theorem isShadow_30_black : isShadow 30 (⟨0, 0, 0⟩ : RGB) := by
  constructor
  · rw [gray_rgb_eq]
    omega
  · right
    rw [gray_rgb_eq]
    omega

theorem not_isShadow_30_white : ¬ isShadow 30 (⟨255, 255, 255⟩ : RGB) := by
  rintro ⟨h1, _⟩
  rw [gray_rgb_eq] at h1
  omega

/-- The second run's final threshold on the written-back mask is always
30: the mask histogram is concentrated at grayscales 0 and 255, every
non-degenerate split scores the same variance, so the scan keeps its
first (and when none is valid, its initial) candidate 0, which the clamp
lifts to 30. -/
theorem segThreshold_mask (w h : ℕ) (data : List RGB) (hwf : WfFrame w h data) :
    segThreshold w h ((generateShadowMask w h data).2) = 30 := by
  set T₁ := segThreshold w h data with hT₁
  set mask := (generateShadowMask w h data).2 with hmaskdef
  have hmask : mask = data.map (fun p =>
      if isShadow T₁ p then (⟨0, 0, 0⟩ : RGB) else ⟨255, 255, 255⟩) := gsm_mask w h data
  have hlen : mask.length = w * h := by
    rw [hmask, List.length_map]
    exact hwf
  have hpix : WfPixels mask := by
    intro p hp
    rw [hmask] at hp
    obtain ⟨q, _, rfl⟩ := List.mem_map.mp hp
    by_cases hq : isShadow T₁ q
    · rw [if_pos hq]
      exact ⟨by decide, by decide, by decide⟩
    · rw [if_neg hq]
      exact ⟨by decide, by decide, by decide⟩
  have htotal : w * h = ∑ i ∈ Finset.range 256, frameHist mask i := by
    rw [sum_frameHist mask hpix, hlen]
  -- below 255 the mask histogram's prefix weight is the shadow count
  have hwle : ∀ t, t ≤ 254 → wLE (frameHist mask) t =
      data.countP (fun p => decide (isShadow T₁ p)) := by
    intro t ht
    unfold wLE
    rw [sum_frameHist_range, hmask, List.countP_map]
    refine List.countP_congr ?_
    intro q _
    by_cases hsq : isShadow T₁ q
    · simp only [Function.comp_def, if_pos hsq, gray_rgb_eq]
      rw [decide_eq_true hsq]
      simp
    · simp only [Function.comp_def, if_neg hsq, gray_rgb_eq]
      rw [decide_eq_false hsq]
      simp
      omega
  have hsumle : ∀ t, t ≤ 254 → sumLE (frameHist mask) t = 0 := by
    intro t ht
    unfold sumLE
    rw [sum_mul_frameHist_range]
    refine List.sum_eq_zero ?_
    intro x hx
    obtain ⟨q, hqmem, rfl⟩ := List.mem_map.mp hx
    have hqf := List.mem_of_mem_filter hqmem
    have hqp := List.of_mem_filter hqmem
    rw [hmask] at hqf
    obtain ⟨q0, _, rfl⟩ := List.mem_map.mp hqf
    by_cases h0 : isShadow T₁ q0
    · rw [if_pos h0] at hqp ⊢
      exact gray_rgb_eq 0
    · rw [if_neg h0] at hqp
      rw [gray_rgb_eq] at hqp
      simp at hqp
      omega
  have hwle255 : wLE (frameHist mask) 255 = w * h := by
    unfold wLE
    rw [← htotal]
  have hT2 : computeOtsuThreshold (frameHist mask) (w * h) = 0 := by
    have hspec := computeOtsu_spec (frameHist mask) (w * h) htotal
    by_cases hex : ∃ t, t < 256 ∧ validLE (frameHist mask) (w * h) t
    · obtain ⟨hT256, hvT, _, hleast⟩ := hspec.1 hex
      obtain ⟨t0, ht0, hv0⟩ := hex
      -- every valid candidate sits below 255
      have hvalid_le : ∀ u, u < 256 → validLE (frameHist mask) (w * h) u → u ≤ 254 := by
        intro u hu hv
        by_contra hcon
        have hu255 : u = 255 := by omega
        subst hu255
        have h2 := hv.2
        rw [hwle255] at h2
        exact absurd h2 (lt_irrefl _)
      have ht0' := hvalid_le t0 ht0 hv0
      have hT' := hvalid_le _ hT256 hvT
      -- candidate 0 is then valid as well
      have hv0' : validLE (frameHist mask) (w * h) 0 := by
        have h1 := hv0.1
        have h2 := hv0.2
        rw [hwle t0 ht0'] at h1 h2
        exact ⟨by rw [hwle 0 (by omega)]; exact h1,
          by rw [hwle 0 (by omega)]; exact h2⟩
      -- all sub-255 candidates score the same variance
      have heqvar : varLE (frameHist mask) (w * h) 0 =
          varLE (frameHist mask) (w * h) (computeOtsuThreshold (frameHist mask) (w * h)) := by
        unfold varLE
        rw [hwle 0 (by omega), hwle _ hT', hsumle 0 (by omega), hsumle _ hT']
      have := hleast 0 (by omega) hv0' heqvar
      omega
    · exact hspec.2 hex
  unfold segThreshold
  rw [hT2]
  omega

/-- The shadow set of the second run is the shadow set of the first: at
the second threshold 30, a mask pixel is shadow iff it is black, i.e. iff
the original pixel was shadow. -/
theorem segCoords_mask (w h : ℕ) (data : List RGB) (hwf : WfFrame w h data) :
    segCoords w h ((generateShadowMask w h data).2) = segCoords w h data := by
  set T₁ := segThreshold w h data with hT₁
  unfold segCoords shadowCoords
  rw [segThreshold_mask w h data hwf]
  refine List.filter_congr ?_
  intro c hc
  have hidx : c.2 * w + c.1 < data.length := by
    rw [hwf]
    exact idx_lt_of_mem_coords hc
  have hpix2 : pixelAt w ((generateShadowMask w h data).2) c =
      (if isShadow T₁ (pixelAt w data c) then (⟨0, 0, 0⟩ : RGB) else ⟨255, 255, 255⟩) := by
    unfold pixelAt
    rw [gsm_mask w h data]
    rw [List.getD_eq_getElem _ _ (by rw [List.length_map]; exact hidx)]
    rw [List.getElem_map]
    rw [List.getD_eq_getElem _ _ hidx]
  rw [hpix2]
  by_cases hs : isShadow T₁ (pixelAt w data c)
  · rw [if_pos hs, decide_eq_true hs, decide_eq_true isShadow_30_black]
  · rw [if_neg hs, decide_eq_false hs, decide_eq_false not_isShadow_30_white]

/-- The mask pixel at a visited coordinate is the recolor of the original
pixel there. -/
theorem pixelAt_mask (w h : ℕ) (data : List RGB) (hwf : WfFrame w h data)
    {c : ℕ × ℕ} (hc : c ∈ coords w h) :
    pixelAt w ((generateShadowMask w h data).2) c =
      (if isShadow (segThreshold w h data) (pixelAt w data c) then (⟨0, 0, 0⟩ : RGB)
       else ⟨255, 255, 255⟩) := by
  have hidx : c.2 * w + c.1 < data.length := by
    rw [hwf]
    exact idx_lt_of_mem_coords hc
  unfold pixelAt
  rw [gsm_mask w h data]
  rw [List.getD_eq_getElem _ _ (by rw [List.length_map]; exact hidx)]
  rw [List.getElem_map]
  rw [List.getD_eq_getElem _ _ hidx]

/-- C8 counterexample: on the 1×1 frame with pixel `(20,20,20)`, the
first run reports average intensity 20 and overwrites the buffer with
the mask (the single pixel becomes black); re-running `segment` on that
same buffer reports average intensity 0, so the two summaries are not
bit-identical. -/
theorem segment_rerun_not_identical :
    (generateShadowMask 1 1 ((generateShadowMask 1 1 [⟨20, 20, 20⟩]).2)).1 ≠
      (generateShadowMask 1 1 [⟨20, 20, 20⟩]).1 := by
  have hg20 : gray (⟨20, 20, 20⟩ : RGB) < 30 := by rw [gray_rgb_eq]; omega
  have h1 : (generateShadowMask 1 1 [(⟨20, 20, 20⟩ : RGB)]).1.avgIntensity = 20 := by
    rw [avg_1x1 _ hg20, gray_rgb_eq]
    norm_num
  have hs := isShadow_of_gray_lt_30 hg20 1 1 [(⟨20, 20, 20⟩ : RGB)]
  have hmask : (generateShadowMask 1 1 [(⟨20, 20, 20⟩ : RGB)]).2 = [⟨0, 0, 0⟩] := by
    rw [gsm_mask, List.map_cons, List.map_nil, if_pos hs]
  intro heq
  rw [hmask] at heq
  have h2 : (generateShadowMask 1 1 [(⟨0, 0, 0⟩ : RGB)]).1.avgIntensity = 0 := by
    rw [avg_1x1 _ (by rw [gray_rgb_eq]; omega), gray_rgb_eq]
    norm_num
  rw [heq, h1] at h2
  norm_num at h2

/-- C8 amended.  `generateShadowMask` is a pure function of its input
buffer, but it returns the recolored mask in place of the frame; running
it again on that same (now mutated) buffer reproduces the pixel count
and the bounding box exactly, while the average intensity collapses to 0
(all surviving shadow pixels are now black). -/
theorem segment_rerun_preserves (w h : ℕ) (data : List RGB) (hwf : WfFrame w h data) :
    (generateShadowMask w h ((generateShadowMask w h data).2)).1.count =
      (generateShadowMask w h data).1.count ∧
    (generateShadowMask w h ((generateShadowMask w h data).2)).1.minX =
      (generateShadowMask w h data).1.minX ∧
    (generateShadowMask w h ((generateShadowMask w h data).2)).1.minY =
      (generateShadowMask w h data).1.minY ∧
    (generateShadowMask w h ((generateShadowMask w h data).2)).1.maxX =
      (generateShadowMask w h data).1.maxX ∧
    (generateShadowMask w h ((generateShadowMask w h data).2)).1.maxY =
      (generateShadowMask w h data).1.maxY ∧
    (generateShadowMask w h ((generateShadowMask w h data).2)).1.avgIntensity = 0 := by
  have hS := segCoords_mask w h data hwf
  refine ⟨?_, ?_, ?_, ?_, ?_, ?_⟩
  · rw [gsm_count, gsm_count, hS]
  · rw [gsm_minX, gsm_minX, hS]
  · rw [gsm_minY, gsm_minY, hS]
  · rw [gsm_maxX, gsm_maxX, hS]
  · rw [gsm_maxY, gsm_maxY, hS]
  · rw [gsm_avg, hS]
    have hzero : ((segCoords w h data).map
        (fun c => gray (pixelAt w ((generateShadowMask w h data).2) c))).sum = 0 := by
      refine List.sum_eq_zero ?_
      intro x hx
      obtain ⟨c, hcmem, hcx⟩ := List.mem_map.mp hx
      have hshadow := (mem_segCoords hcmem).2.2
      have hcoords : c ∈ coords w h := by
        unfold segCoords shadowCoords at hcmem
        exact List.mem_of_mem_filter hcmem
      rw [← hcx, pixelAt_mask w h data hwf hcoords, if_pos hshadow, gray_rgb_eq]
    rw [hzero]
    split_ifs <;> simp

/-- Witness for the amended C8 on the 1×1 frame with pixel `(20,20,20)`. -/
theorem segment_rerun_preserves_witness :
    WfFrame 1 1 [⟨20, 20, 20⟩] ∧
    (generateShadowMask 1 1 ((generateShadowMask 1 1 [⟨20, 20, 20⟩]).2)).1.count =
      (generateShadowMask 1 1 [⟨20, 20, 20⟩]).1.count ∧
    (generateShadowMask 1 1 ((generateShadowMask 1 1 [⟨20, 20, 20⟩]).2)).1.avgIntensity = 0 :=
  ⟨rfl, (segment_rerun_preserves 1 1 [⟨20, 20, 20⟩] rfl).1,
    (segment_rerun_preserves 1 1 [⟨20, 20, 20⟩] rfl).2.2.2.2.2⟩

end ShadowDepth
